import Mathlib

/-!
Verification of the knowledge-distillation training script
`parallel_wavenet_vocoder/train_student.py`.

Shallow embedding conventions:
* float tensors are modelled over `ℝ`; a 1-D tensor (one example's time
  series) is a `List ℝ`, a batched 2-D tensor is a `List (List ℝ)` (one inner
  list per batch row), and a raw waveform fed to the STFT is a function
  `ℕ → ℝ` (the script views it as a flat `(B, T)` tensor);
* tensor slicing `[1:]` is `List.tail`, `[:-1]` is `List.dropLast`,
  `[:, 1:]` maps `List.drop 1` over the rows;
* `torch.clamp (min := m)` is `max · m`; `torch.exp`, `torch.log`,
  `torch.sqrt` are `Real.exp`, `Real.log`, `Real.sqrt`;
* `random.shuffle` applied to a torch tensor slice view is modelled by
  `brokenShuffle`: the Fisher-Yates loop whose tuple swap
  `x[i], x[j] = x[j], x[i]` goes through aliasing 0-dim tensor views, so the
  second assignment re-reads the already overwritten cell — each nontrivial
  "swap" duplicates one element and loses another; the one shuffle applied to
  a plain numpy array (the batch-row order `perm`) really permutes, since
  numpy integer indexing returns scalar copies, and is modelled by an oracle
  function assumed (as a hypothesis) to permute its input.
-/

noncomputable section

/-- One aligned position of `KLLoss.forward` (train_student.py lines 303-315):
the teacher's log-scale is clamped from below by `log_scale_min` before being
exponentiated to the teacher scale, and the two loss terms are
`loss1 = 4*|clamped_tls - sls|^2` and
`loss2 = log (tscale/sscale) + (sscale^2 - tscale^2 + (smu - tmu)^2) / (2*tscale^2)`. -/
def klTerm (logScaleMin tMu tLs sMu sScale sLs : ℝ) : ℝ :=
  4 * |max tLs logScaleMin - sLs| ^ 2 +
    (Real.log (Real.exp (max tLs logScaleMin) / sScale) +
      (sScale ^ 2 - Real.exp (max tLs logScaleMin) ^ 2 + (sMu - tMu) ^ 2) /
        (2 * Real.exp (max tLs logScaleMin) ^ 2))

/-- Five-way elementwise combination of equal-length time series, truncating at
the shortest list exactly as broadcasting elementwise torch ops require equal
shapes (the lists always have equal length at the call sites). -/
def klZip (logScaleMin : ℝ) : List ℝ → List ℝ → List ℝ → List ℝ → List ℝ → List ℝ
  | a :: as, b :: bs, c :: cs, d :: ds, e :: es =>
      klTerm logScaleMin a b c d e :: klZip logScaleMin as bs cs ds es
  | _, _, _, _, _ => []

/-- `KLLoss.forward` (train_student.py lines 303-315) for one batch row.
The student's three series are sliced by `[:, 1:]` (`List.tail`) and the
teacher's two series by `[:, c, :-1]` (`List.dropLast`), then combined
elementwise by `klTerm`. -/
def KLLoss.forward (logScaleMin : ℝ) (teacherMu teacherLogScale studentMu studentScale studentLogScale : List ℝ) : List ℝ :=
  klZip logScaleMin teacherMu.dropLast teacherLogScale.dropLast
    studentMu.tail studentScale.tail studentLogScale.tail

theorem klZip_length (logScaleMin : ℝ) :
    ∀ as bs cs ds es : List ℝ,
      (klZip logScaleMin as bs cs ds es).length =
        min as.length (min bs.length (min cs.length (min ds.length es.length)))
  | [], _, _, _, _ => by simp [klZip]
  | _ :: _, [], _, _, _ => by simp [klZip]
  | _ :: _, _ :: _, [], _, _ => by simp [klZip]
  | _ :: _, _ :: _, _ :: _, [], _ => by simp [klZip]
  | _ :: _, _ :: _, _ :: _, _ :: _, [] => by simp [klZip]
  | a :: as, b :: bs, c :: cs, d :: ds, e :: es => by
      simp only [klZip, List.length_cons, klZip_length logScaleMin as bs cs ds es]
      omega

theorem klZip_getD (logScaleMin : ℝ) :
    ∀ (as bs cs ds es : List ℝ) (j : ℕ),
      j < as.length → j < bs.length → j < cs.length → j < ds.length → j < es.length →
      (klZip logScaleMin as bs cs ds es).getD j 0 =
        klTerm logScaleMin (as.getD j 0) (bs.getD j 0) (cs.getD j 0) (ds.getD j 0) (es.getD j 0)
  | [], _, _, _, _, j, ha, _, _, _, _ => by simp at ha
  | _ :: _, [], _, _, _, j, _, hb, _, _, _ => by simp at hb
  | _ :: _, _ :: _, [], _, _, j, _, _, hc, _, _ => by simp at hc
  | _ :: _, _ :: _, _ :: _, [], _, j, _, _, _, hd, _ => by simp at hd
  | _ :: _, _ :: _, _ :: _, _ :: _, [], j, _, _, _, _, he => by simp at he
  | a :: as, b :: bs, c :: cs, d :: ds, e :: es, 0, _, _, _, _, _ => rfl
  | a :: as, b :: bs, c :: cs, d :: ds, e :: es, j + 1, ha, hb, hc, hd, he => by
      simpa [klZip] using
        klZip_getD logScaleMin as bs cs ds es j
          (by simpa using Nat.lt_of_succ_lt_succ ha)
          (by simpa using Nat.lt_of_succ_lt_succ hb)
          (by simpa using Nat.lt_of_succ_lt_succ hc)
          (by simpa using Nat.lt_of_succ_lt_succ hd)
          (by simpa using Nat.lt_of_succ_lt_succ he)

theorem getD_dropLast {l : List ℝ} {j : ℕ} (h : j + 1 < l.length) :
    l.dropLast.getD j 0 = l.getD j 0 := by
  have hj : j < l.dropLast.length := by
    simpa [List.length_dropLast] using by omega
  have hj' : j < l.length := by omega
  rw [List.getD_eq_getElem _ _ hj, List.getD_eq_getElem _ _ hj']
  exact List.getElem_dropLast l j hj

theorem getD_tail {l : List ℝ} {j : ℕ} (h : j + 1 < l.length) :
    l.tail.getD j 0 = l.getD (j + 1) 0 := by
  have hj : j < l.tail.length := by simpa [List.length_tail] using by omega
  rw [List.getD_eq_getElem _ _ hj, List.getD_eq_getElem _ _ h]
  simp [List.getElem_tail]

/-- The value of `KLLoss.forward` at aligned position `j`: student series are
read at index `j + 1`, teacher series at index `j`. -/
theorem KLLoss.forward_getD (logScaleMin : ℝ)
    (tMu tLs sMu sScale sLs : List ℝ) (T j : ℕ)
    (h1 : tMu.length = T) (h2 : tLs.length = T) (h3 : sMu.length = T)
    (h4 : sScale.length = T) (h5 : sLs.length = T) (hj : j + 1 < T) :
    (KLLoss.forward logScaleMin tMu tLs sMu sScale sLs).getD j 0 =
      klTerm logScaleMin (tMu.getD j 0) (tLs.getD j 0)
        (sMu.getD (j + 1) 0) (sScale.getD (j + 1) 0) (sLs.getD (j + 1) 0) := by
  have := klZip_getD logScaleMin tMu.dropLast tLs.dropLast sMu.tail sScale.tail sLs.tail j
    (by simp [List.length_dropLast, h1]; omega)
    (by simp [List.length_dropLast, h2]; omega)
    (by simp [List.length_tail, h3]; omega)
    (by simp [List.length_tail, h4]; omega)
    (by simp [List.length_tail, h5]; omega)
  rw [KLLoss.forward, this,
    getD_dropLast (by omega : j + 1 < tMu.length),
    getD_dropLast (by omega : j + 1 < tLs.length),
    getD_tail (by omega : j + 1 < sMu.length),
    getD_tail (by omega : j + 1 < sScale.length),
    getD_tail (by omega : j + 1 < sLs.length)]

/-- C1: for every teacher output sequence of (location, log-scale) pairs and
every student output sequence of (location, scale, log-scale) triples, the KL
component at each aligned position `j` equals
`4*(teacher_log_scale - student_log_scale)^2 + ln (teacher_scale/student_scale)
 + (student_scale^2 - teacher_scale^2 + (student_loc - teacher_loc)^2) / (2*teacher_scale^2)`,
where the teacher log-scale is first clamped to the configured minimum,
`teacher_scale` is the exponential of the clamped value, and the student's
position `j + 1` is aligned with the teacher's position `j`. -/
theorem C1_kl_formula_and_alignment (logScaleMin : ℝ)
    (tMu tLs sMu sScale sLs : List ℝ) (T j : ℕ)
    (h1 : tMu.length = T) (h2 : tLs.length = T) (h3 : sMu.length = T)
    (h4 : sScale.length = T) (h5 : sLs.length = T) (hj : j + 1 < T) :
    (KLLoss.forward logScaleMin tMu tLs sMu sScale sLs).getD j 0 =
      4 * (max (tLs.getD j 0) logScaleMin - sLs.getD (j + 1) 0) ^ 2 +
        Real.log (Real.exp (max (tLs.getD j 0) logScaleMin) / sScale.getD (j + 1) 0) +
        ((sScale.getD (j + 1) 0) ^ 2 - Real.exp (max (tLs.getD j 0) logScaleMin) ^ 2 +
            (sMu.getD (j + 1) 0 - tMu.getD j 0) ^ 2) /
          (2 * Real.exp (max (tLs.getD j 0) logScaleMin) ^ 2) := by
  rw [KLLoss.forward_getD logScaleMin tMu tLs sMu sScale sLs T j h1 h2 h3 h4 h5 hj,
    klTerm, sq_abs]
  ring

/-- Witness for C1 at a concrete input: all five series of length 2, `j = 0`. -/
theorem C1_kl_formula_and_alignment_witness :
    (([(0 : ℝ), 1].length = 2) ∧ (0 + 1 < 2)) ∧
      (KLLoss.forward 0 [(0 : ℝ), 1] [(0 : ℝ), 1] [(0 : ℝ), 1] [(0 : ℝ), 1] [(0 : ℝ), 1]).getD 0 0 =
        4 * (max (([(0 : ℝ), 1]).getD 0 0) 0 - ([(0 : ℝ), 1]).getD (0 + 1) 0) ^ 2 +
          Real.log (Real.exp (max (([(0 : ℝ), 1]).getD 0 0) 0) / ([(0 : ℝ), 1]).getD (0 + 1) 0) +
          ((([(0 : ℝ), 1]).getD (0 + 1) 0) ^ 2 - Real.exp (max (([(0 : ℝ), 1]).getD 0 0) 0) ^ 2 +
              (([(0 : ℝ), 1]).getD (0 + 1) 0 - ([(0 : ℝ), 1]).getD 0 0) ^ 2) /
            (2 * Real.exp (max (([(0 : ℝ), 1]).getD 0 0) 0) ^ 2) :=
  ⟨⟨rfl, by omega⟩,
    C1_kl_formula_and_alignment 0 [0, 1] [0, 1] [0, 1] [0, 1] [0, 1] 2 0
      rfl rfl rfl rfl rfl (by omega)⟩

/-- `sequence_mask` (train_student.py lines 259-269): row `b` is the indicator
`[t < lens[b]]` over `t = 0, ..., maxLen - 1`, as a float tensor. -/
def sequence_mask (lens : List ℕ) (maxLen : ℕ) : List (List ℝ) :=
  lens.map fun L => (List.range maxLen).map fun t => if t < L then (1 : ℝ) else 0

/-- `mask = mask[:, 1:]` (train_student.py line 677): the first timestep is
excluded from every row of the mask. -/
def maskTail (mask : List (List ℝ)) : List (List ℝ) :=
  mask.map (List.drop 1)

/-- Elementwise product `kl_loss * mask` (train_student.py line 700). -/
def maskedKLMatrix (kl mask : List (List ℝ)) : List (List ℝ) :=
  List.zipWith (fun krow mrow => List.zipWith (fun a b => a * b) krow mrow) kl mask

/-- `(kl_loss * mask).sum()` (train_student.py line 700). -/
def maskedKLSum (kl mask : List (List ℝ)) : ℝ :=
  ((maskedKLMatrix kl mask).map List.sum).sum

/-- `mask.sum()` (train_student.py line 700). -/
def maskSum (mask : List (List ℝ)) : ℝ :=
  (mask.map List.sum).sum

/-- `kl_loss = ((kl_loss * mask).sum()) / mask.sum()` (train_student.py
lines 676-700), with the mask built by `sequence_mask` and shifted by one. -/
def trainStepKLLoss (kl : List (List ℝ)) (lens : List ℕ) (maxLen : ℕ) : ℝ :=
  maskedKLSum kl (maskTail (sequence_mask lens maxLen)) /
    maskSum (maskTail (sequence_mask lens maxLen))

/-- The aggregation the spec describes: the sum of the per-position KL values
over the valid positions of every example, divided by the total count of valid
positions across the whole batch. -/
def specKLAverage (kl : List (List ℝ)) (lens : List ℕ) : ℝ :=
  (List.zipWith (fun (krow : List ℝ) (L : ℕ) => (krow.take (L - 1)).sum) kl lens).sum /
    (lens.map fun L => ((L - 1 : ℕ) : ℝ)).sum

theorem indicator_row_ones (n k : ℕ) (h : n ≤ k) :
    (List.range n).map (fun t => if t < k then (1 : ℝ) else 0) = List.replicate n 1 := by
  induction n with
  | zero => simp
  | succ n ih =>
    rw [List.range_succ, List.map_append, ih (by omega), List.replicate_succ']
    simp [Nat.lt_of_succ_le h]

theorem indicator_row_eq (n k : ℕ) (h : k ≤ n) :
    (List.range n).map (fun t => if t < k then (1 : ℝ) else 0) =
      List.replicate k 1 ++ List.replicate (n - k) 0 := by
  induction n with
  | zero =>
    have : k = 0 := by omega
    simp [this]
  | succ n ih =>
    rcases Nat.lt_or_ge k (n + 1) with hk | hk
    · have hk' : k ≤ n := by omega
      rw [List.range_succ, List.map_append, ih hk']
      have hnk : ¬ n < k := by omega
      have : n + 1 - k = (n - k) + 1 := by omega
      rw [this, List.replicate_succ' (n - k) (0 : ℝ), List.append_assoc]
      simp [hnk]
    · have : k = n + 1 := by omega
      subst this
      rw [indicator_row_ones (n + 1) (n + 1) le_rfl]
      simp

theorem mask_row_eq (maxLen L : ℕ) (h1 : 1 ≤ L) (h2 : L ≤ maxLen) :
    ((List.range maxLen).map (fun t => if t < L then (1 : ℝ) else 0)).drop 1 =
      List.replicate (L - 1) 1 ++ List.replicate (maxLen - L) 0 := by
  rw [indicator_row_eq maxLen L h2]
  obtain ⟨M, rfl⟩ : ∃ M, L = M + 1 := ⟨L - 1, by omega⟩
  rw [List.replicate_succ, List.cons_append, List.drop_one, List.tail_cons]
  simp

theorem zipWith_mul_zeros_sum :
    ∀ (xs : List ℝ) (m : ℕ),
      (List.zipWith (fun a b => a * b) xs (List.replicate m (0 : ℝ))).sum = 0
  | [], _ => by simp
  | _ :: _, 0 => by simp
  | x :: xs, m + 1 => by
    simp [List.replicate_succ, zipWith_mul_zeros_sum xs m]

theorem zipWith_mul_mask_sum :
    ∀ (m : ℕ) (xs : List ℝ) (m' : ℕ),
      (List.zipWith (fun a b => a * b) xs
          (List.replicate m (1 : ℝ) ++ List.replicate m' 0)).sum = (xs.take m).sum
  | 0, xs, m' => by simpa using zipWith_mul_zeros_sum xs m'
  | m + 1, [], m' => by simp
  | m + 1, x :: xs, m' => by
    simp [List.replicate_succ, List.cons_append, zipWith_mul_mask_sum m xs m']

theorem mask_row_sum (m m' : ℕ) :
    (List.replicate m (1 : ℝ) ++ List.replicate m' 0).sum = (m : ℝ) := by
  simp [List.sum_replicate]

theorem maskedKLSum_eq :
    ∀ (kl : List (List ℝ)) (lens : List ℕ) (maxLen : ℕ),
      (∀ L ∈ lens, 1 ≤ L ∧ L ≤ maxLen) →
      maskedKLSum kl (maskTail (sequence_mask lens maxLen)) =
        (List.zipWith (fun (krow : List ℝ) (L : ℕ) => (krow.take (L - 1)).sum) kl lens).sum
  | [], lens, maxLen, _ => by simp [maskedKLSum, maskedKLMatrix, maskTail, sequence_mask]
  | k :: ks, [], maxLen, _ => by simp [maskedKLSum, maskedKLMatrix, maskTail, sequence_mask]
  | k :: ks, L :: Ls, maxLen, hL => by
    have h0 := hL L (List.mem_cons_self L Ls)
    have ih := maskedKLSum_eq ks Ls maxLen (fun L' hL' => hL L' (List.mem_cons_of_mem L hL'))
    simp only [maskedKLSum, maskedKLMatrix, maskTail, sequence_mask, List.map_cons,
      List.zipWith_cons_cons, List.sum_cons] at *
    rw [mask_row_eq maxLen L h0.1 h0.2, zipWith_mul_mask_sum, ih]

theorem maskSum_eq :
    ∀ (lens : List ℕ) (maxLen : ℕ),
      (∀ L ∈ lens, 1 ≤ L ∧ L ≤ maxLen) →
      maskSum (maskTail (sequence_mask lens maxLen)) =
        (lens.map fun L => ((L - 1 : ℕ) : ℝ)).sum
  | [], maxLen, _ => by simp [maskSum, maskTail, sequence_mask]
  | L :: Ls, maxLen, hL => by
    have h0 := hL L (List.mem_cons_self L Ls)
    have ih := maskSum_eq Ls maxLen (fun L' hL' => hL L' (List.mem_cons_of_mem L hL'))
    simp only [maskSum, maskTail, sequence_mask, List.map_cons, List.sum_cons] at *
    rw [mask_row_eq maxLen L h0.1 h0.2, mask_row_sum, ih]

theorem zipWith_mul_zeros_getD :
    ∀ (xs : List ℝ) (m' j : ℕ),
      (List.zipWith (fun a b => a * b) xs (List.replicate m' (0 : ℝ))).getD j 0 = 0
  | [], _, _ => by simp
  | _ :: _, 0, _ => by simp
  | x :: xs, m' + 1, 0 => by simp [List.replicate_succ]
  | x :: xs, m' + 1, j + 1 => by
    simp only [List.replicate_succ, List.zipWith_cons_cons, List.getD_cons_succ]
    exact zipWith_mul_zeros_getD xs m' j

theorem zipWith_mul_mask_getD :
    ∀ (m : ℕ) (xs : List ℝ) (m' j : ℕ), m ≤ j →
      (List.zipWith (fun a b => a * b) xs
          (List.replicate m (1 : ℝ) ++ List.replicate m' 0)).getD j 0 = 0
  | 0, xs, m', j, _ => by simpa using zipWith_mul_zeros_getD xs m' j
  | m + 1, [], m', j, _ => by simp
  | m + 1, x :: xs, m', 0, h => by omega
  | m + 1, x :: xs, m', j + 1, h => by
    simp only [List.replicate_succ, List.cons_append, List.zipWith_cons_cons,
      List.getD_cons_succ]
    exact zipWith_mul_mask_getD m xs m' j (by omega)

theorem maskedKLMatrix_invalid_zero :
    ∀ (kl : List (List ℝ)) (lens : List ℕ) (maxLen b j : ℕ),
      (∀ L ∈ lens, 1 ≤ L ∧ L ≤ maxLen) → lens.getD b 0 ≤ j + 1 →
      ((maskedKLMatrix kl (maskTail (sequence_mask lens maxLen))).getD b []).getD j 0 = 0
  | [], lens, maxLen, b, j, _, _ => by simp [maskedKLMatrix]
  | k :: ks, [], maxLen, b, j, _, _ => by simp [maskedKLMatrix, maskTail, sequence_mask]
  | k :: ks, L :: Ls, maxLen, 0, j, hL, hj => by
    have h0 := hL L (List.mem_cons_self L Ls)
    simp only [maskedKLMatrix, maskTail, sequence_mask, List.map_cons,
      List.zipWith_cons_cons, List.getD_cons_zero]
    rw [mask_row_eq maxLen L h0.1 h0.2]
    have hj' : L - 1 ≤ j := by
      simp only [List.getD_cons_zero] at hj
      omega
    exact zipWith_mul_mask_getD (L - 1) k (maxLen - L) j hj'
  | k :: ks, L :: Ls, maxLen, b + 1, j, hL, hj => by
    simp only [maskedKLMatrix, maskTail, sequence_mask, List.map_cons,
      List.zipWith_cons_cons, List.getD_cons_succ]
    exact maskedKLMatrix_invalid_zero ks Ls maxLen b j
      (fun L' hL' => hL L' (List.mem_cons_of_mem L hL'))
      (by simpa using hj)

/-- C2: the aggregated KL loss equals the sum of the per-position KL values
over the valid positions divided by the total count of valid positions across
the whole batch (not by the batch size); the validity mask is derived from the
valid lengths with the first timestep excluded, and every invalid (masked-out)
position of the masked KL matrix is exactly zero. -/
theorem C2_masked_kl_aggregation (kl : List (List ℝ)) (lens : List ℕ) (maxLen : ℕ)
    (hL : ∀ L ∈ lens, 1 ≤ L ∧ L ≤ maxLen) :
    trainStepKLLoss kl lens maxLen = specKLAverage kl lens ∧
      ∀ b j : ℕ, lens.getD b 0 ≤ j + 1 →
        ((maskedKLMatrix kl (maskTail (sequence_mask lens maxLen))).getD b []).getD j 0 = 0 := by
  refine ⟨?_, fun b j hj => maskedKLMatrix_invalid_zero kl lens maxLen b j hL hj⟩
  rw [trainStepKLLoss, specKLAverage, maskedKLSum_eq kl lens maxLen hL, maskSum_eq lens maxLen hL]

/-- Witness for C2 at a concrete batch: two examples with valid lengths 3 and 2,
padded time dimension 3. -/
theorem C2_masked_kl_aggregation_witness :
    (∀ L ∈ [3, 2], 1 ≤ L ∧ L ≤ 3) ∧
      (trainStepKLLoss [[1, 2], [3, 4]] [3, 2] 3 = specKLAverage [[1, 2], [3, 4]] [3, 2] ∧
        ∀ b j : ℕ, ([3, 2] : List ℕ).getD b 0 ≤ j + 1 →
          ((maskedKLMatrix [[1, 2], [3, 4]] (maskTail (sequence_mask [3, 2] 3))).getD b []).getD j 0 = 0) :=
  ⟨by decide, C2_masked_kl_aggregation [[1, 2], [3, 4]] [3, 2] 3 (by decide)⟩

/-- C9 counterexample: the batch `lens = [1]`, `maxLen = 1` is non-empty and its
single example has one unpadded timestep, yet the shifted mask used for the
KL normalization has valid-position count 0, so `mask.sum()` is 0 and the
masked-loss division `(kl_loss * mask).sum() / mask.sum()` divides by zero. -/
theorem C9_counterexample :
    (([1] : List ℕ) ≠ [] ∧ (1 : ℕ) ∈ ([1] : List ℕ) ∧ 1 ≤ (1 : ℕ)) ∧
      maskSum (maskTail (sequence_mask [1] 1)) = 0 := by
  refine ⟨⟨by simp, by simp, le_rfl⟩, ?_⟩
  simp [maskSum, maskTail, sequence_mask, List.range_succ]

theorem mask_row_entry_nonneg (maxLen L : ℕ) (x : ℝ)
    (hx : x ∈ ((List.range maxLen).map fun t => if t < L then (1 : ℝ) else 0).drop 1) :
    0 ≤ x := by
  have hx' := List.mem_of_mem_drop hx
  obtain ⟨t, _, rfl⟩ := List.mem_map.mp hx'
  split <;> norm_num

/-- C9 (amended): if the batch has an example with at least **two** unpadded
timesteps (not one, as claimed: the mask drops the first timestep, so an
example of length 1 contributes no valid position), the valid-position count
of the shifted mask is at least 1 and the masked-loss division is safe. -/
theorem C9_mask_sum_positive (lens : List ℕ) (maxLen : ℕ)
    (hle : ∀ L ∈ lens, L ≤ maxLen) (h2 : ∃ L ∈ lens, 2 ≤ L) :
    1 ≤ maskSum (maskTail (sequence_mask lens maxLen)) := by
  obtain ⟨L, hmem, hL2⟩ := h2
  have hrow : (((List.range maxLen).map fun t => if t < L then (1 : ℝ) else 0).drop 1).sum
      = ((L - 1 : ℕ) : ℝ) := by
    rw [mask_row_eq maxLen L (by omega) (hle L hmem), mask_row_sum]
  have hmemrow : (((List.range maxLen).map fun t => if t < L then (1 : ℝ) else 0).drop 1).sum
      ∈ (maskTail (sequence_mask lens maxLen)).map List.sum := by
    simp only [maskTail, sequence_mask, List.map_map]
    exact List.mem_map.mpr ⟨L, hmem, rfl⟩
  have hnonneg : ∀ x ∈ (maskTail (sequence_mask lens maxLen)).map List.sum, (0 : ℝ) ≤ x := by
    intro x hx
    simp only [maskTail, sequence_mask, List.map_map] at hx
    obtain ⟨L', _, rfl⟩ := List.mem_map.mp hx
    exact List.sum_nonneg (mask_row_entry_nonneg maxLen L')
  have hle1 : (1 : ℝ) ≤ ((L - 1 : ℕ) : ℝ) := by
    have : (1 : ℕ) ≤ L - 1 := by omega
    exact_mod_cast this
  calc (1 : ℝ) ≤ ((L - 1 : ℕ) : ℝ) := hle1
    _ ≤ ((maskTail (sequence_mask lens maxLen)).map List.sum).sum := by
        rw [← hrow]
        exact List.single_le_sum hnonneg _ hmemrow
    _ = maskSum (maskTail (sequence_mask lens maxLen)) := rfl

/-- Witness for the amended C9: one example of length 2, padded length 2. -/
theorem C9_mask_sum_positive_witness :
    ((∀ L ∈ [(2 : ℕ)], L ≤ 2) ∧ (∃ L ∈ [(2 : ℕ)], 2 ≤ L)) ∧
      1 ≤ maskSum (maskTail (sequence_mask [2] 2)) :=
  ⟨⟨by decide, by decide⟩, C9_mask_sum_positive [2] 2 (by decide) (by decide)⟩

/-- The five per-row distribution-parameter series entering `KLLoss.forward`
for one batch row: teacher (location, log-scale) and student
(location, scale, log-scale). -/
structure GaussParams where
  tMu : List ℝ
  tLs : List ℝ
  sMu : List ℝ
  sScale : List ℝ
  sLs : List ℝ
deriving Inhabited

/-- The batched KL tensor of `__train_step` (train_student.py line 699):
`KLLoss.forward` applied row by row. -/
def klMatrix (logScaleMin : ℝ) (rows : List GaussParams) : List (List ℝ) :=
  rows.map fun r => KLLoss.forward logScaleMin r.tMu r.tLs r.sMu r.sScale r.sLs

/-- Two parameter rows have the same shapes and agree on the first `L`
timesteps (the valid region); beyond `L` they may differ arbitrarily. -/
def agreeUpTo (p q : GaussParams) (L : ℕ) : Prop :=
  p.tMu.length = q.tMu.length ∧ p.tLs.length = q.tLs.length ∧
  p.sMu.length = q.sMu.length ∧ p.sScale.length = q.sScale.length ∧
  p.sLs.length = q.sLs.length ∧
  p.tMu.take L = q.tMu.take L ∧ p.tLs.take L = q.tLs.take L ∧
  p.sMu.take L = q.sMu.take L ∧ p.sScale.take L = q.sScale.take L ∧
  p.sLs.take L = q.sLs.take L

theorem klZip_take (logScaleMin : ℝ) :
    ∀ (m : ℕ) (as bs cs ds es : List ℝ),
      (klZip logScaleMin as bs cs ds es).take m =
        klZip logScaleMin (as.take m) (bs.take m) (cs.take m) (ds.take m) (es.take m)
  | 0, as, bs, cs, ds, es => by
    cases as <;> cases bs <;> cases cs <;> cases ds <;> cases es <;> simp [klZip]
  | m + 1, [], bs, cs, ds, es => by simp [klZip]
  | m + 1, a :: as, [], cs, ds, es => by simp [klZip]
  | m + 1, a :: as, b :: bs, [], ds, es => by simp [klZip]
  | m + 1, a :: as, b :: bs, c :: cs, [], es => by simp [klZip]
  | m + 1, a :: as, b :: bs, c :: cs, d :: ds, [] => by simp [klZip]
  | m + 1, a :: as, b :: bs, c :: cs, d :: ds, e :: es => by
    simp only [klZip, List.take_succ_cons]
    exact congrArg _ (klZip_take logScaleMin m as bs cs ds es)

theorem take_dropLast_eq {p q : List ℝ} {L : ℕ}
    (hlen : p.length = q.length) (htake : p.take L = q.take L) :
    p.dropLast.take (L - 1) = q.dropLast.take (L - 1) := by
  rw [List.dropLast_eq_take, List.dropLast_eq_take, List.take_take, List.take_take, hlen]
  have hm : (L - 1) ⊓ (q.length - 1) ≤ L := by omega
  calc List.take ((L - 1) ⊓ (q.length - 1)) p
      = List.take ((L - 1) ⊓ (q.length - 1)) (p.take L) := by
        rw [List.take_take, inf_of_le_left hm]
    _ = List.take ((L - 1) ⊓ (q.length - 1)) (q.take L) := by rw [htake]
    _ = List.take ((L - 1) ⊓ (q.length - 1)) q := by
        rw [List.take_take, inf_of_le_left hm]

theorem take_tail_eq {p q : List ℝ} {L : ℕ} (htake : p.take L = q.take L) :
    p.tail.take (L - 1) = q.tail.take (L - 1) := by
  have hp : p.tail.take (L - 1) = (p.take L).drop 1 := by
    rw [List.drop_take, List.drop_one]
  have hq : q.tail.take (L - 1) = (q.take L).drop 1 := by
    rw [List.drop_take, List.drop_one]
  rw [hp, hq, htake]

theorem forward_take_eq (logScaleMin : ℝ) (p q : GaussParams) (L : ℕ)
    (h : agreeUpTo p q L) :
    (KLLoss.forward logScaleMin p.tMu p.tLs p.sMu p.sScale p.sLs).take (L - 1) =
      (KLLoss.forward logScaleMin q.tMu q.tLs q.sMu q.sScale q.sLs).take (L - 1) := by
  obtain ⟨l1, l2, l3, l4, l5, t1, t2, t3, t4, t5⟩ := h
  rw [KLLoss.forward, KLLoss.forward, klZip_take, klZip_take,
    take_dropLast_eq l1 t1, take_dropLast_eq l2 t2,
    take_tail_eq t3, take_tail_eq t4, take_tail_eq t5]

theorem klMatrix_take_sums_eq (logScaleMin : ℝ) :
    ∀ (rowsA rowsB : List GaussParams) (lens : List ℕ),
      rowsA.length = lens.length → rowsB.length = lens.length →
      (∀ b, b < lens.length →
        agreeUpTo (rowsA.getD b default) (rowsB.getD b default) (lens.getD b 0)) →
      List.zipWith (fun (krow : List ℝ) (L : ℕ) => (krow.take (L - 1)).sum)
          (klMatrix logScaleMin rowsA) lens =
        List.zipWith (fun (krow : List ℝ) (L : ℕ) => (krow.take (L - 1)).sum)
          (klMatrix logScaleMin rowsB) lens
  | [], [], lens, _, _, _ => by simp [klMatrix]
  | [], q :: qs, lens, hA, hB, _ => by
    rw [← hA] at hB
    simp at hB
  | p :: ps, [], lens, hA, hB, _ => by
    rw [← hA] at hB
    simp at hB
  | p :: ps, q :: qs, [], hA, _, _ => by simp at hA
  | p :: ps, q :: qs, L :: Ls, hA, hB, hagree => by
    have h0 := hagree 0 (by simp)
    simp only [List.getD_cons_zero] at h0
    have ih := klMatrix_take_sums_eq logScaleMin ps qs Ls
      (by simpa using hA) (by simpa using hB)
      (fun b hb => by simpa using hagree (b + 1) (by simpa using Nat.succ_lt_succ hb))
    simp only [klMatrix, List.map_cons, List.zipWith_cons_cons]
    rw [forward_take_eq logScaleMin p q L h0]
    exact congrArg _ ih

/-- C3 (amended): replacing the five distribution-parameter series in the
padded (beyond-valid-length) region with arbitrary values leaves the masked KL
loss of `__train_step` unchanged.  (The power loss is **not** masked — see
`C3_power_loss_counterexample` — so the original claim fails for it.) -/
theorem C3_padded_region_kl_invariance (logScaleMin : ℝ)
    (rowsA rowsB : List GaussParams) (lens : List ℕ) (maxLen : ℕ)
    (hA : rowsA.length = lens.length) (hB : rowsB.length = lens.length)
    (hL : ∀ L ∈ lens, 1 ≤ L ∧ L ≤ maxLen)
    (hagree : ∀ b, b < lens.length →
      agreeUpTo (rowsA.getD b default) (rowsB.getD b default) (lens.getD b 0)) :
    trainStepKLLoss (klMatrix logScaleMin rowsA) lens maxLen =
      trainStepKLLoss (klMatrix logScaleMin rowsB) lens maxLen := by
  rw [trainStepKLLoss, trainStepKLLoss,
    maskedKLSum_eq _ lens maxLen hL, maskedKLSum_eq _ lens maxLen hL,
    klMatrix_take_sums_eq logScaleMin rowsA rowsB lens hA hB hagree]

/-- Witness for the amended C3: one example of valid length 2 in a padded
length-3 batch; the two parameter sets differ (in every series) at the padded
timestep 2 only, and the masked KL losses coincide. -/
theorem C3_padded_region_kl_invariance_witness :
    (([⟨[0, 0, 5], [0, 0, 5], [0, 0, 5], [1, 1, 5], [0, 0, 5]⟩] : List GaussParams).length = 1 ∧
      (∀ L ∈ [(2 : ℕ)], 1 ≤ L ∧ L ≤ 3)) ∧
      trainStepKLLoss (klMatrix 0 [⟨[0, 0, 5], [0, 0, 5], [0, 0, 5], [1, 1, 5], [0, 0, 5]⟩]) [2] 3 =
        trainStepKLLoss (klMatrix 0 [⟨[0, 0, 7], [0, 0, 7], [0, 0, 7], [1, 1, 7], [0, 0, 7]⟩]) [2] 3 := by
  refine ⟨⟨rfl, by decide⟩, ?_⟩
  exact C3_padded_region_kl_invariance 0
    [⟨[0, 0, 5], [0, 0, 5], [0, 0, 5], [1, 1, 5], [0, 0, 5]⟩]
    [⟨[0, 0, 7], [0, 0, 7], [0, 0, 7], [1, 1, 7], [0, 0, 7]⟩]
    [2] 3 rfl rfl (by decide)
    (fun b hb => by
      have hb0 : b = 0 := by simpa using hb
      subst hb0
      exact ⟨rfl, rfl, rfl, rfl, rfl, rfl, rfl, rfl, rfl, rfl⟩)

/-- `freq = int(3000 / (self.sample_rate * 0.5) * 1025)` (train_student.py
line 335): the number of retained low-band bins of the 2048-point transform.
The float expression `3000 / (sr * 0.5) * 1025` truncated by `int` equals the
natural division `3000 * 1025 * 2 / sr`. -/
def freqLow (sampleRate : ℕ) : ℕ := 3000 * 1025 * 2 / sampleRate

/-- `freq1 = int(3000 / (self.sample_rate * 0.5) * 257)` (train_student.py
line 347): the first retained high-band bin of the 512-point transform. -/
def freqHigh (sampleRate : ℕ) : ℕ := 3000 * 257 * 2 / sampleRate

/-- `torch.hann_window(1200, periodic=True)` entry `n` of window length `N`. -/
def hannWindow (N n : ℕ) : ℝ := 1 / 2 * (1 - Real.cos (2 * Real.pi * n / N))

/-- Real part of the short-time Fourier transform used by `PowerLoss.forward`
(train_student.py lines 334-353): frame `f` covers samples
`f*300, ..., f*300 + 1199` (`hop = 300`, `win_length = 1200`), multiplied by
the Hann window and by `exp (-2*pi*i*k*n/nfft)`. -/
def stftRe (nfft : ℕ) (x : ℕ → ℝ) (f k : ℕ) : ℝ :=
  ∑ n ∈ Finset.range 1200,
    hannWindow 1200 n * x (f * 300 + n) * Real.cos (2 * Real.pi * k * n / nfft)

/-- Imaginary part of the same transform. -/
def stftIm (nfft : ℕ) (x : ℕ → ℝ) (f k : ℕ) : ℝ :=
  -∑ n ∈ Finset.range 1200,
    hannWindow 1200 n * x (f * 300 + n) * Real.sin (2 * Real.pi * k * n / nfft)

/-- `get_magnitude` (train_student.py lines 360-363):
`sqrt(real^2 + imag^2)` per (frame, bin). -/
def stftMag (nfft : ℕ) (x : ℕ → ℝ) (f k : ℕ) : ℝ :=
  Real.sqrt (stftRe nfft x f k ^ 2 + stftIm nfft x f k ^ 2)

/-- Number of analysis frames of a length-`T` signal with window 1200 and
hop 300 (no end padding). -/
def numFrames (T : ℕ) : ℕ := (T - 1200) / 300 + 1

/-- One band of `PowerLoss.forward`:
`torch.mean(torch.pow(torch.norm(|mag_s| - |mag_y|, p=2, dim=1), 2), dim=1)`
(train_student.py lines 345, 356, 358) — the 2-norm over the frame axis,
squared, then the mean over the retained frequency bins. -/
def bandLoss (nfft : ℕ) (bins : Finset ℕ) (T : ℕ) (s y : ℕ → ℝ) : ℝ :=
  (∑ k ∈ bins,
      Real.sqrt (∑ f ∈ Finset.range (numFrames T),
        (|stftMag nfft s f k| - |stftMag nfft y f k|) ^ 2) ^ 2) / bins.card

/-- `PowerLoss.forward` (train_student.py lines 324-358) for one example:
the 2048-point transform keeps bins `< freq` (below 3 kHz) and the 512-point
transform keeps bins `>= freq1` (above 3 kHz); the band losses are combined as
`low + 10 * high`. -/
def PowerLoss.forward (sampleRate T : ℕ) (s y : ℕ → ℝ) : ℝ :=
  bandLoss 2048 (Finset.range (freqLow sampleRate)) T s y +
    10 * bandLoss 512 (Finset.Ico (freqHigh sampleRate) 257) T s y

/-- `power_loss = torch.mean(pl_criterion(student_hat, y))` (train_student.py
lines 702-703): the per-example power losses averaged over the batch. -/
def powerLossBatch (sampleRate T : ℕ) (ss ys : List (ℕ → ℝ)) : ℝ :=
  ((ss.zip ys).map fun p => PowerLoss.forward sampleRate T p.1 p.2).sum / ss.length

/-- The claim's reading of one band: the *mean squared* magnitude-difference,
i.e. the mean over all retained (bin, frame) entries of the squared
magnitude differences. -/
def claimBandLoss (nfft : ℕ) (bins : Finset ℕ) (T : ℕ) (s y : ℕ → ℝ) : ℝ :=
  (∑ k ∈ bins, ∑ f ∈ Finset.range (numFrames T),
      (stftMag nfft s f k - stftMag nfft y f k) ^ 2) / (bins.card * numFrames T)

/-- The claim's per-example spectral loss: low-band mean square plus ten times
the high-band mean square. -/
def claimPowerLoss (sampleRate T : ℕ) (s y : ℕ → ℝ) : ℝ :=
  claimBandLoss 2048 (Finset.range (freqLow sampleRate)) T s y +
    10 * claimBandLoss 512 (Finset.Ico (freqHigh sampleRate) 257) T s y

/-- The claim's batch-averaged spectral loss. -/
def claimPowerLossBatch (sampleRate T : ℕ) (ss ys : List (ℕ → ℝ)) : ℝ :=
  ((ss.zip ys).map fun p => claimPowerLoss sampleRate T p.1 p.2).sum / ss.length

/-- The amended reading of one band, matching the code: per retained bin the
squared magnitude differences are *summed* over the frames, and the mean is
taken over the bins only. -/
def specBandLoss (nfft : ℕ) (bins : Finset ℕ) (T : ℕ) (s y : ℕ → ℝ) : ℝ :=
  (∑ k ∈ bins, ∑ f ∈ Finset.range (numFrames T),
      (stftMag nfft s f k - stftMag nfft y f k) ^ 2) / bins.card

/-- The amended per-example spectral loss. -/
def specPowerLoss (sampleRate T : ℕ) (s y : ℕ → ℝ) : ℝ :=
  specBandLoss 2048 (Finset.range (freqLow sampleRate)) T s y +
    10 * specBandLoss 512 (Finset.Ico (freqHigh sampleRate) 257) T s y

theorem stftMag_nonneg (nfft : ℕ) (x : ℕ → ℝ) (f k : ℕ) : 0 ≤ stftMag nfft x f k :=
  Real.sqrt_nonneg _

theorem bandLoss_eq_specBandLoss (nfft : ℕ) (bins : Finset ℕ) (T : ℕ) (s y : ℕ → ℝ) :
    bandLoss nfft bins T s y = specBandLoss nfft bins T s y := by
  rw [bandLoss, specBandLoss]
  congr 1
  refine Finset.sum_congr rfl fun k _ => ?_
  rw [Real.sq_sqrt (Finset.sum_nonneg fun f _ => sq_nonneg _)]
  refine Finset.sum_congr rfl fun f _ => ?_
  rw [abs_of_nonneg (stftMag_nonneg nfft s f k), abs_of_nonneg (stftMag_nonneg nfft y f k)]

/-- C4 (amended): the computed power loss is, per example, the mean over the
retained low-band bins of the frame-summed squared magnitude differences of
the 2048-point transform, plus ten times the same quantity for the retained
high-band bins of the 512-point transform, and the per-example values are then
averaged over the batch.  (The original claim's plain "mean squared
magnitude-difference" fails: see `C4_power_loss_counterexample` — the code
sums over frames and averages over bins only.) -/
theorem C4_power_loss_band_structure (sampleRate T : ℕ) (ss ys : List (ℕ → ℝ)) :
    powerLossBatch sampleRate T ss ys =
        ((ss.zip ys).map fun p => specPowerLoss sampleRate T p.1 p.2).sum / ss.length ∧
      ∀ s y : ℕ → ℝ, PowerLoss.forward sampleRate T s y = specPowerLoss sampleRate T s y := by
  have hfwd : ∀ s y : ℕ → ℝ,
      PowerLoss.forward sampleRate T s y = specPowerLoss sampleRate T s y := by
    intro s y
    rw [PowerLoss.forward, specPowerLoss, bandLoss_eq_specBandLoss, bandLoss_eq_specBandLoss]
  refine ⟨?_, hfwd⟩
  rw [powerLossBatch]
  congr 1
  exact congrArg List.sum
    (List.map_congr_left fun (p : (ℕ → ℝ) × (ℕ → ℝ)) _ => hfwd p.1 p.2)

/-- The all-zero waveform (one batch row viewed as a flat signal). -/
def zeroSig : ℕ → ℝ := fun _ => 0

/-- A waveform that is zero everywhere except at sample 600, where it is 1.
Used as the padded region of a valid-length-300 example in a padded
length-1500 batch: samples 300 and beyond are padding. -/
def oneHotSig : ℕ → ℝ := fun n => if n = 600 then 1 else 0

theorem stftRe_zeroSig (nfft f k : ℕ) : stftRe nfft zeroSig f k = 0 := by
  simp [stftRe, zeroSig]

theorem stftIm_zeroSig (nfft f k : ℕ) : stftIm nfft zeroSig f k = 0 := by
  simp [stftIm, zeroSig]

theorem stftMag_zeroSig (nfft f k : ℕ) : stftMag nfft zeroSig f k = 0 := by
  rw [stftMag, stftRe_zeroSig, stftIm_zeroSig]
  simp

theorem hann_600 : hannWindow 1200 600 = 1 := by
  rw [hannWindow]
  have h : 2 * Real.pi * ((600 : ℕ) : ℝ) / ((1200 : ℕ) : ℝ) = Real.pi := by
    push_cast
    ring
  rw [h, Real.cos_pi]
  norm_num

theorem hann_300 : hannWindow 1200 300 = 1 / 2 := by
  rw [hannWindow]
  have h : 2 * Real.pi * ((300 : ℕ) : ℝ) / ((1200 : ℕ) : ℝ) = Real.pi / 2 := by
    push_cast
    ring
  rw [h, Real.cos_pi_div_two]
  norm_num

theorem sqrt_single (h θ : ℝ) (hh : 0 ≤ h) :
    Real.sqrt ((h * Real.cos θ) ^ 2 + (-(h * Real.sin θ)) ^ 2) = h := by
  have hsum : (h * Real.cos θ) ^ 2 + (-(h * Real.sin θ)) ^ 2 = h ^ 2 := by
    calc (h * Real.cos θ) ^ 2 + (-(h * Real.sin θ)) ^ 2
        = h ^ 2 * (Real.sin θ ^ 2 + Real.cos θ ^ 2) := by ring
      _ = h ^ 2 := by rw [Real.sin_sq_add_cos_sq, mul_one]
  rw [hsum, Real.sqrt_sq hh]

theorem stftRe_oneHot_f0 (nfft k : ℕ) :
    stftRe nfft oneHotSig 0 k =
      hannWindow 1200 600 * Real.cos (2 * Real.pi * k * 600 / nfft) := by
  rw [stftRe, Finset.sum_eq_single 600]
  · norm_num [oneHotSig]
  · intro n _ hne
    simp [oneHotSig, hne]
  · intro h
    exact absurd (Finset.mem_range.mpr (by norm_num)) h

theorem stftIm_oneHot_f0 (nfft k : ℕ) :
    stftIm nfft oneHotSig 0 k =
      -(hannWindow 1200 600 * Real.sin (2 * Real.pi * k * 600 / nfft)) := by
  rw [stftIm, neg_inj]
  rw [Finset.sum_eq_single 600]
  · norm_num [oneHotSig]
  · intro n _ hne
    simp [oneHotSig, hne]
  · intro h
    exact absurd (Finset.mem_range.mpr (by norm_num)) h

theorem stftRe_oneHot_f1 (nfft k : ℕ) :
    stftRe nfft oneHotSig 1 k =
      hannWindow 1200 300 * Real.cos (2 * Real.pi * k * 300 / nfft) := by
  rw [stftRe, Finset.sum_eq_single 300]
  · norm_num [oneHotSig]
  · intro n _ hne
    have hx : 1 * 300 + n ≠ 600 := by omega
    simp [oneHotSig, hx]
  · intro h
    exact absurd (Finset.mem_range.mpr (by norm_num)) h

theorem stftIm_oneHot_f1 (nfft k : ℕ) :
    stftIm nfft oneHotSig 1 k =
      -(hannWindow 1200 300 * Real.sin (2 * Real.pi * k * 300 / nfft)) := by
  rw [stftIm, neg_inj]
  rw [Finset.sum_eq_single 300]
  · norm_num [oneHotSig]
  · intro n _ hne
    have hx : 1 * 300 + n ≠ 600 := by omega
    simp [oneHotSig, hx]
  · intro h
    exact absurd (Finset.mem_range.mpr (by norm_num)) h

theorem stftMag_oneHot_f0 (nfft k : ℕ) : stftMag nfft oneHotSig 0 k = 1 := by
  rw [stftMag, stftRe_oneHot_f0, stftIm_oneHot_f0, hann_600]
  exact sqrt_single 1 _ (by norm_num)

theorem stftMag_oneHot_f1 (nfft k : ℕ) : stftMag nfft oneHotSig 1 k = 1 / 2 := by
  rw [stftMag, stftRe_oneHot_f1, stftIm_oneHot_f1, hann_300]
  exact sqrt_single (1 / 2) _ (by norm_num)

theorem numFrames_1500 : numFrames 1500 = 2 := by
  norm_num [numFrames]

theorem frame_sum_abs_val (nfft k : ℕ) :
    ∑ f ∈ Finset.range (numFrames 1500),
        (|stftMag nfft zeroSig f k| - |stftMag nfft oneHotSig f k|) ^ 2 = 5 / 4 := by
  rw [numFrames_1500, Finset.sum_range_succ, Finset.sum_range_succ, Finset.sum_range_zero,
    stftMag_zeroSig, stftMag_zeroSig, stftMag_oneHot_f0, stftMag_oneHot_f1]
  rw [abs_zero, abs_one, abs_of_nonneg (by norm_num : (0 : ℝ) ≤ 1 / 2)]
  norm_num

theorem frame_sum_val (nfft k : ℕ) :
    ∑ f ∈ Finset.range (numFrames 1500),
        (stftMag nfft zeroSig f k - stftMag nfft oneHotSig f k) ^ 2 = 5 / 4 := by
  rw [numFrames_1500, Finset.sum_range_succ, Finset.sum_range_succ, Finset.sum_range_zero,
    stftMag_zeroSig, stftMag_zeroSig, stftMag_oneHot_f0, stftMag_oneHot_f1]
  norm_num

theorem bandLoss_zero_zero (nfft : ℕ) (bins : Finset ℕ) (T : ℕ) :
    bandLoss nfft bins T zeroSig zeroSig = 0 := by
  rw [bandLoss]
  have h : ∀ k ∈ bins,
      Real.sqrt (∑ f ∈ Finset.range (numFrames T),
        (|stftMag nfft zeroSig f k| - |stftMag nfft zeroSig f k|) ^ 2) ^ 2 = 0 := by
    intro k _
    simp
  rw [Finset.sum_congr rfl h, Finset.sum_const, smul_zero, zero_div]

theorem bandLoss_zero_oneHot (nfft : ℕ) (bins : Finset ℕ) (hb : bins.Nonempty) :
    bandLoss nfft bins 1500 zeroSig oneHotSig = 5 / 4 := by
  rw [bandLoss]
  have h : ∀ k ∈ bins,
      Real.sqrt (∑ f ∈ Finset.range (numFrames 1500),
        (|stftMag nfft zeroSig f k| - |stftMag nfft oneHotSig f k|) ^ 2) ^ 2 = 5 / 4 := by
    intro k _
    rw [frame_sum_abs_val, Real.sq_sqrt (by norm_num)]
  rw [Finset.sum_congr rfl h, Finset.sum_const, nsmul_eq_mul]
  have hc : (bins.card : ℝ) ≠ 0 := by
    have := Finset.card_pos.mpr hb
    positivity
  field_simp
  ring

theorem claimBandLoss_zero_oneHot (nfft : ℕ) (bins : Finset ℕ) (hb : bins.Nonempty) :
    claimBandLoss nfft bins 1500 zeroSig oneHotSig = 5 / 8 := by
  rw [claimBandLoss]
  have h : ∀ k ∈ bins,
      ∑ f ∈ Finset.range (numFrames 1500),
        (stftMag nfft zeroSig f k - stftMag nfft oneHotSig f k) ^ 2 = 5 / 4 :=
    fun k _ => frame_sum_val nfft k
  rw [Finset.sum_congr rfl h, Finset.sum_const, nsmul_eq_mul, numFrames_1500]
  have hc : (bins.card : ℝ) ≠ 0 := by
    have := Finset.card_pos.mpr hb
    positivity
  field_simp
  ring

theorem freqLow_22050 : freqLow 22050 = 278 := by
  norm_num [freqLow]

theorem freqHigh_22050 : freqHigh 22050 = 69 := by
  norm_num [freqHigh]

theorem forward_zero_zero (sampleRate T : ℕ) :
    PowerLoss.forward sampleRate T zeroSig zeroSig = 0 := by
  rw [PowerLoss.forward, bandLoss_zero_zero, bandLoss_zero_zero]
  ring

theorem forward_zero_oneHot :
    PowerLoss.forward 22050 1500 zeroSig oneHotSig = 55 / 4 := by
  rw [PowerLoss.forward, freqLow_22050, freqHigh_22050,
    bandLoss_zero_oneHot 2048 _ ⟨0, Finset.mem_range.mpr (by norm_num)⟩,
    bandLoss_zero_oneHot 512 _ ⟨69, Finset.mem_Ico.mpr (by norm_num)⟩]
  norm_num

theorem claimPowerLoss_zero_oneHot :
    claimPowerLoss 22050 1500 zeroSig oneHotSig = 55 / 8 := by
  rw [claimPowerLoss, freqLow_22050, freqHigh_22050,
    claimBandLoss_zero_oneHot 2048 _ ⟨0, Finset.mem_range.mpr (by norm_num)⟩,
    claimBandLoss_zero_oneHot 512 _ ⟨69, Finset.mem_Ico.mpr (by norm_num)⟩]
  norm_num

theorem claimPowerLoss_zero_zero (sampleRate T : ℕ) :
    claimPowerLoss sampleRate T zeroSig zeroSig = 0 := by
  rw [claimPowerLoss, claimBandLoss, claimBandLoss]
  simp

theorem powerLossBatch_zero :
    powerLossBatch 22050 1500 [zeroSig, zeroSig] [zeroSig, zeroSig] = 0 := by
  rw [powerLossBatch]
  simp [forward_zero_zero]

theorem powerLossBatch_mixed :
    powerLossBatch 22050 1500 [zeroSig, zeroSig] [zeroSig, oneHotSig] = 55 / 8 := by
  rw [powerLossBatch]
  simp only [List.zip_cons_cons, List.zip_nil_right, List.map_cons, List.map_nil,
    List.sum_cons, List.sum_nil, List.length_cons, List.length_nil]
  rw [forward_zero_zero, forward_zero_oneHot]
  norm_num

theorem claimPowerLossBatch_mixed :
    claimPowerLossBatch 22050 1500 [zeroSig, zeroSig] [zeroSig, oneHotSig] = 55 / 16 := by
  rw [claimPowerLossBatch]
  simp only [List.zip_cons_cons, List.zip_nil_right, List.map_cons, List.map_nil,
    List.sum_cons, List.sum_nil, List.length_cons, List.length_nil]
  rw [claimPowerLoss_zero_zero, claimPowerLoss_zero_oneHot]
  norm_num

/-- C3 counterexample: a batch of two waveforms with valid lengths 1500 and
300 padded to length 1500.  Changing the second (length-300) waveform only in
its padded region (sample 600 set to 1, all samples `t < 300` unchanged)
changes the computed power loss from 0 to 55/8: the power loss is computed on
the full padded waveforms without any length mask, refuting the claim that
padded-region changes leave it unchanged. -/
theorem C3_power_loss_counterexample :
    (∀ t, t < 300 → oneHotSig t = zeroSig t) ∧
      powerLossBatch 22050 1500 [zeroSig, zeroSig] [zeroSig, zeroSig] ≠
        powerLossBatch 22050 1500 [zeroSig, zeroSig] [zeroSig, oneHotSig] := by
  constructor
  · intro t ht
    simp only [oneHotSig, zeroSig]
    rw [if_neg (by omega)]
  · rw [powerLossBatch_zero, powerLossBatch_mixed]
    norm_num

/-- C4 counterexample: on the same concrete batch, the code's power loss is
55/8 while the claim's "mean squared magnitude-difference" reading gives
55/16 — the code sums the squared differences over the analysis frames and
averages only over the frequency bins. -/
theorem C4_power_loss_counterexample :
    powerLossBatch 22050 1500 [zeroSig, zeroSig] [zeroSig, oneHotSig] ≠
      claimPowerLossBatch 22050 1500 [zeroSig, zeroSig] [zeroSig, oneHotSig] := by
  rw [powerLossBatch_mixed, claimPowerLossBatch_mixed]
  norm_num

/-- Python's floor division `a // b`, which raises ZeroDivisionError when
`b = 0`: `none` models the raised exception. -/
def pyDiv (a b : ℕ) : Option ℕ :=
  if b = 0 then none else some (a / b)

/-- The loop `for i in range(len(indices) // batch_group_size):
random.shuffle(indices[s:e])` (train_student.py lines 211-214): group `i`
(the slice `[i*bgs, (i+1)*bgs)`) is replaced by its shuffle. -/
def shuffleGroups (sh : ℕ → List ℕ → List ℕ) (bgs : ℕ) : ℕ → List ℕ → List ℕ
  | 0, l => l
  | k + 1, l => sh 0 (l.take bgs) ++ shuffleGroups (fun i => sh (i + 1)) bgs k (l.drop bgs)

/-- `indices[:e].view(-1, batch_size)` (train_student.py line 220): the first
`r` rows of `batch_size` consecutive indices. -/
def toRowsN (bs : ℕ) : ℕ → List ℕ → List (List ℕ)
  | 0, _ => []
  | r + 1, l => l.take bs :: toRowsN bs r (l.drop bs)

/-- `torch.sort(torch.LongTensor(lengths))` (train_student.py line 195): the
example indices sorted by ascending length. -/
def sortedIndices (lengths : List ℕ) : List ℕ :=
  (List.range lengths.length).mergeSort fun i j =>
    decide (lengths.getD i 0 ≤ lengths.getD j 0)

/-- One step of CPython's Fisher-Yates swap `x[i], x[j] = x[j], x[i]`
executed on a torch LongTensor slice view (train_student.py lines 214
and 225).  `x[j]` and `x[i]` are aliasing 0-dim views of the tensor storage,
not copies: after `x[i] = x[j]` stores the value at `j` into cell `i`, the
second assignment `x[j] = x[i]` re-reads cell `i` — which now holds the old
`x[j]` — and writes it back into cell `j` unchanged.  The net effect of one
"swap" is `cell i := old cell j`, with cell `j` untouched: whenever `j ≠ i`,
the old value of cell `i` is lost and the value of cell `j` duplicated. -/
def brokenSwap (l : List ℕ) (i j : ℕ) : List ℕ :=
  l.set i (l.getD j 0)

/-- The Fisher-Yates loop of `random.shuffle`,
`for i in reversed(range(1, len(x))): j = randbelow(i + 1); swap`, with the
aliasing swap above; `js i` is the random draw `j` used at step `i` (CPython
guarantees `js i ≤ i`). -/
def brokenShuffleAux (js : ℕ → ℕ) : ℕ → List ℕ → List ℕ
  | 0, l => l
  | i + 1, l => brokenShuffleAux js i (brokenSwap l (i + 1) (js (i + 1)))

/-- `random.shuffle(view)` on a length-`n` torch slice view: the aliasing
swaps run for `i = n - 1, ..., 1`. -/
def brokenShuffle (js : ℕ → ℕ) (l : List ℕ) : List ℕ :=
  brokenShuffleAux js (l.length - 1) l

/-- `PartialyRandomizedSimilarTimeLengthSampler.__iter__` (train_student.py
lines 207-227).  The in-group and tail `random.shuffle(indices[s:e])` calls
act on torch LongTensor slice views, so they are `brokenShuffle` driven by
oracle random draws (`groupDraws i` for group `i`, `tailDraws` for the
tail).  The batch-row reordering (lines 218-220) shuffles the **numpy**
array `perm = np.arange(e // batch_size)` — numpy integer indexing returns
scalar copies, so that one shuffle genuinely permutes — and reorders the
rows of `indices[:e].view(-1, batch_size)` by `perm`; it is modelled by an
oracle `rowPerm` assumed only to permute the list of rows.
`e = (n // bgs) * bgs` bounds the full groups; the tail `[e:]` is shuffled
only when at least one full group exists and the tail is non-empty (when
`n < bgs` the final `s = bgs` exceeds `n`, so the whole list is left
unshuffled).  `none` is the ZeroDivisionError from
`len(indices) // batch_group_size` at group size 0. -/
def PartialyRandomizedSimilarTimeLengthSampler.iter
    (batch_group_size batch_size : ℕ) (permutate : Bool)
    (groupDraws : ℕ → ℕ → ℕ)
    (rowPerm : List (List ℕ) → List (List ℕ))
    (tailDraws : ℕ → ℕ)
    (sorted : List ℕ) : Option (List ℕ) :=
  match pyDiv sorted.length batch_group_size with
  | none => none
  | some k =>
    let e := k * batch_group_size
    let head := shuffleGroups (fun i => brokenShuffle (groupDraws i))
      batch_group_size k (sorted.take e)
    let head2 :=
      if permutate then (rowPerm (toRowsN batch_size (e / batch_size) head)).flatten
      else head
    let tailPart := sorted.drop e
    let tail2 :=
      if 1 ≤ k ∧ e < sorted.length then brokenShuffle tailDraws tailPart else tailPart
    some (head2 ++ tail2)

theorem brokenShuffleAux_length (js : ℕ → ℕ) :
    ∀ (i : ℕ) (l : List ℕ), (brokenShuffleAux js i l).length = l.length
  | 0, _ => rfl
  | i + 1, l => by
    rw [brokenShuffleAux, brokenShuffleAux_length js i, brokenSwap, List.length_set]

theorem brokenShuffle_length (js : ℕ → ℕ) (l : List ℕ) :
    (brokenShuffle js l).length = l.length :=
  brokenShuffleAux_length js _ l

theorem brokenShuffleAux_subset (js : ℕ → ℕ) (hjs : ∀ k, js k ≤ k) :
    ∀ (i : ℕ) (l : List ℕ), i < l.length → ∀ x ∈ brokenShuffleAux js i l, x ∈ l
  | 0, _, _, _, hx => hx
  | i + 1, l, hi, x, hx => by
    rw [brokenShuffleAux] at hx
    have hlen : (brokenSwap l (i + 1) (js (i + 1))).length = l.length := by
      rw [brokenSwap, List.length_set]
    have hx' := brokenShuffleAux_subset js hjs i _ (by rw [hlen]; omega) x hx
    rw [brokenSwap] at hx'
    rcases List.mem_or_eq_of_mem_set hx' with h | h
    · exact h
    · subst h
      have hj : js (i + 1) < l.length := lt_of_le_of_lt (hjs (i + 1)) hi
      rw [List.getD_eq_getElem _ _ hj]
      exact List.getElem_mem hj

theorem brokenShuffle_subset (js : ℕ → ℕ) (hjs : ∀ k, js k ≤ k) (l : List ℕ) :
    ∀ x ∈ brokenShuffle js l, x ∈ l := by
  cases l with
  | nil =>
    intro x hx
    simp only [brokenShuffle, brokenShuffleAux] at hx
    exact hx
  | cons a t =>
    intro x hx
    refine brokenShuffleAux_subset js hjs ((a :: t).length - 1) (a :: t) ?_ x hx
    simp only [List.length_cons]
    omega

theorem shuffleGroups_length (bgs : ℕ) :
    ∀ (k : ℕ) (sh : ℕ → List ℕ → List ℕ) (l : List ℕ),
      (∀ i x, (sh i x).length = x.length) → (shuffleGroups sh bgs k l).length = l.length
  | 0, _, _, _ => rfl
  | k + 1, sh, l, hsh => by
    rw [shuffleGroups, List.length_append, hsh,
      shuffleGroups_length bgs k (fun i => sh (i + 1)) (l.drop bgs)
        (fun i x => hsh (i + 1) x),
      List.length_take, List.length_drop]
    omega

theorem shuffleGroups_subset (bgs : ℕ) :
    ∀ (k : ℕ) (sh : ℕ → List ℕ → List ℕ) (l : List ℕ),
      (∀ i x, ∀ a ∈ sh i x, a ∈ x) → ∀ a ∈ shuffleGroups sh bgs k l, a ∈ l
  | 0, _, _, _, _, ha => ha
  | k + 1, sh, l, hsh, a, ha => by
    rw [shuffleGroups] at ha
    rcases List.mem_append.mp ha with h | h
    · exact List.mem_of_mem_take (hsh 0 (l.take bgs) a h)
    · exact List.mem_of_mem_drop
        (shuffleGroups_subset bgs k (fun i => sh (i + 1)) (l.drop bgs)
          (fun i x b hb => hsh (i + 1) x b hb) a h)

theorem toRowsN_flatten (bs : ℕ) :
    ∀ (r : ℕ) (l : List ℕ), (toRowsN bs r l).flatten = l.take (r * bs)
  | 0, l => by simp [toRowsN]
  | r + 1, l => by
    rw [toRowsN, List.flatten_cons, toRowsN_flatten bs r (l.drop bs)]
    have h : (r + 1) * bs = bs + r * bs := by ring
    rw [h, List.take_add]

theorem iter_eq_some (bgs bs : ℕ) (p : Bool) (gjs : ℕ → ℕ → ℕ)
    (rp : List (List ℕ) → List (List ℕ)) (tjs : ℕ → ℕ)
    (sorted : List ℕ) (hbgs : bgs ≠ 0) :
    PartialyRandomizedSimilarTimeLengthSampler.iter bgs bs p gjs rp tjs sorted =
      some ((if p then
          (rp (toRowsN bs (sorted.length / bgs * bgs / bs)
            (shuffleGroups (fun i => brokenShuffle (gjs i)) bgs (sorted.length / bgs)
              (sorted.take (sorted.length / bgs * bgs))))).flatten
        else shuffleGroups (fun i => brokenShuffle (gjs i)) bgs (sorted.length / bgs)
          (sorted.take (sorted.length / bgs * bgs))) ++
        (if 1 ≤ sorted.length / bgs ∧ sorted.length / bgs * bgs < sorted.length then
          brokenShuffle tjs (sorted.drop (sorted.length / bgs * bgs))
        else sorted.drop (sorted.length / bgs * bgs))) := by
  rw [PartialyRandomizedSimilarTimeLengthSampler.iter, pyDiv, if_neg hbgs]

/-- What one full iteration of the real sampler still guarantees for a
positive group size divisible by the batch size: the iteration returns a
list whose length equals the example count and whose entries are all valid
example indices.  It does **not** in general return a permutation — the
aliasing swaps of `brokenShuffle` can duplicate an index and lose another
(see `C5_sampler_code_bug`). -/
theorem sampler_iter_length_and_mem (lengths : List ℕ) (bs bgs : ℕ) (p : Bool)
    (gjs : ℕ → ℕ → ℕ) (rp : List (List ℕ) → List (List ℕ)) (tjs : ℕ → ℕ)
    (hbgs : 0 < bgs) (hdvd : bs ∣ bgs)
    (hg : ∀ i k, gjs i k ≤ k) (ht : ∀ k, tjs k ≤ k)
    (hr : ∀ rs, (rp rs).Perm rs) :
    ∃ out, PartialyRandomizedSimilarTimeLengthSampler.iter bgs bs p gjs rp tjs
        (sortedIndices lengths) = some out ∧
      out.length = lengths.length ∧ ∀ x ∈ out, x < lengths.length := by
  have hsortperm : (sortedIndices lengths).Perm (List.range lengths.length) :=
    List.mergeSort_perm _ _
  set sorted := sortedIndices lengths with hsorted
  rw [iter_eq_some bgs bs p gjs rp tjs sorted (by omega)]
  refine ⟨_, rfl, ?_, ?_⟩
  all_goals
    have hsl : sorted.length = lengths.length := by
      rw [hsortperm.length_eq, List.length_range]
    have he : sorted.length / bgs * bgs ≤ sorted.length := Nat.div_mul_le_self _ _
    have hheadlen : (shuffleGroups (fun i => brokenShuffle (gjs i)) bgs
        (sorted.length / bgs) (sorted.take (sorted.length / bgs * bgs))).length =
        sorted.length / bgs * bgs := by
      rw [shuffleGroups_length bgs _ _ _ (fun i x => brokenShuffle_length (gjs i) x),
        List.length_take]
      omega
    have hheadsub : ∀ x ∈ shuffleGroups (fun i => brokenShuffle (gjs i)) bgs
        (sorted.length / bgs) (sorted.take (sorted.length / bgs * bgs)), x ∈ sorted :=
      fun x hx => List.mem_of_mem_take
        (shuffleGroups_subset bgs _ _ _
          (fun i y a ha => brokenShuffle_subset (gjs i) (hg i) y a ha) x hx)
    have hflat : (toRowsN bs (sorted.length / bgs * bgs / bs)
        (shuffleGroups (fun i => brokenShuffle (gjs i)) bgs (sorted.length / bgs)
          (sorted.take (sorted.length / bgs * bgs)))).flatten =
        shuffleGroups (fun i => brokenShuffle (gjs i)) bgs (sorted.length / bgs)
          (sorted.take (sorted.length / bgs * bgs)) := by
      rw [toRowsN_flatten, Nat.div_mul_cancel (hdvd.mul_left _)]
      exact List.take_of_length_le (le_of_eq hheadlen)
  · rw [List.length_append]
    have hh2 : (if p then
        (rp (toRowsN bs (sorted.length / bgs * bgs / bs)
          (shuffleGroups (fun i => brokenShuffle (gjs i)) bgs (sorted.length / bgs)
            (sorted.take (sorted.length / bgs * bgs))))).flatten
        else shuffleGroups (fun i => brokenShuffle (gjs i)) bgs (sorted.length / bgs)
          (sorted.take (sorted.length / bgs * bgs))).length =
        sorted.length / bgs * bgs := by
      cases p with
      | false => simpa using hheadlen
      | true =>
        simp only [if_pos]
        rw [(hr _).flatten.length_eq, hflat, hheadlen]
    have ht2 : (if 1 ≤ sorted.length / bgs ∧ sorted.length / bgs * bgs < sorted.length
        then brokenShuffle tjs (sorted.drop (sorted.length / bgs * bgs))
        else sorted.drop (sorted.length / bgs * bgs)).length =
        sorted.length - sorted.length / bgs * bgs := by
      split
      · rw [brokenShuffle_length, List.length_drop]
      · rw [List.length_drop]
    rw [hh2, ht2]
    omega
  · intro x hx
    have hxs : x ∈ sorted := by
      rcases List.mem_append.mp hx with h | h
      · revert h
        cases p with
        | false =>
          intro h
          exact hheadsub x (by simpa using h)
        | true =>
          intro h
          simp only [if_pos] at h
          have h' := ((hr _).flatten.mem_iff).mp h
          rw [hflat] at h'
          exact hheadsub x h'
      · revert h
        split
        · intro h
          exact List.mem_of_mem_drop (brokenShuffle_subset tjs ht _ x h)
        · intro h
          exact List.mem_of_mem_drop h
    have := hsortperm.mem_iff.mp hxs
    exact List.mem_range.mp this

/-- C5: the claim — one full iteration of the sampler yields a permutation of
all example indices, every index appearing exactly once — states the
sampler's evident intent (its docstring and the spec's testable property),
and the code does not deliver it.  With lengths `[5, 7]`, batch size 1,
group size 2, `permutate = False` and the random draw `j = 0` at swap step
`i = 1`, the in-group `random.shuffle(indices[0:2])` executes the aliasing
swap on the torch slice view and `__iter__` yields `[0, 0]`: index 1 is
lost and index 0 duplicated, which is not a permutation of the two example
indices.  Additionally, at group size 0 — produced by the constructor's own
default whenever the dataset is smaller than one batch, and admitted by its
assertion `0 % batch_size == 0` — the iteration raises ZeroDivisionError
(`none`) instead of yielding anything. -/
theorem C5_sampler_code_bug :
    (PartialyRandomizedSimilarTimeLengthSampler.iter 2 1 false (fun _ _ => 0)
        (fun rs => rs) (fun _ => 0) (sortedIndices [5, 7]) = some [0, 0] ∧
      ¬ ([0, 0] : List ℕ).Perm (List.range ([5, 7] : List ℕ).length)) ∧
      PartialyRandomizedSimilarTimeLengthSampler.iter 0 2 true (fun _ _ => 0)
        (fun rs => rs) (fun _ => 0) (sortedIndices [5]) = none := by
  have hsort : sortedIndices [5, 7] = [0, 1] := by
    show (List.range 2).mergeSort _ = [0, 1]
    exact List.mergeSort_of_sorted (by decide)
  refine ⟨⟨?_, by decide⟩, rfl⟩
  rw [hsort]
  rfl

/-- `_pad` (train_student.py lines 89-91): `np.pad(seq, (0, max_len - len(seq)),
mode=constant, constant_values=0)` — zeros appended up to `max_len`. -/
def _pad (seq : List ℝ) (maxLen : ℕ) : List ℝ :=
  seq ++ List.replicate (maxLen - seq.length) 0

/-- `input_lengths = [len(x[0]) for x in batch]` (train_student.py line 442),
on the already time-adjusted batch. -/
def collateLengths (batch : List (List ℝ)) : List ℕ :=
  batch.map List.length

/-- `max_input_len = max(input_lengths)` (train_student.py line 443). -/
def collateMaxLen (batch : List (List ℝ)) : ℕ :=
  (collateLengths batch).foldr max 0

/-- `y_batch = np.array([_pad(x[0], max_input_len) for x in batch])`
(train_student.py lines 458-460) — the padded waveform target tensor (the
scalar-input `x_batch` rows are padded by `_pad_2d` with the same zeros). -/
def collateY (batch : List (List ℝ)) : List (List ℝ) :=
  batch.map fun x => _pad x (collateMaxLen batch)

theorem le_foldr_max : ∀ (lens : List ℕ), ∀ L ∈ lens, L ≤ lens.foldr max 0
  | [], L, hL => by simp at hL
  | L' :: rest, L, hL => by
    rcases List.mem_cons.mp hL with h | h
    · subst h
      exact le_max_left _ _
    · exact le_trans (le_foldr_max rest L h) (le_max_right _ _)

theorem replicate_getD_zero : ∀ (m t : ℕ), (List.replicate m (0 : ℝ)).getD t 0 = 0
  | 0, _ => by simp
  | m + 1, 0 => by simp
  | m + 1, t + 1 => by
    rw [List.replicate_succ, List.getD_cons_succ]
    exact replicate_getD_zero m t

theorem pad_getD_zero (seq : List ℝ) (maxLen t : ℕ) (ht : seq.length ≤ t) :
    (_pad seq maxLen).getD t 0 = 0 := by
  rw [_pad, List.getD_append_right _ _ _ _ ht, replicate_getD_zero]

/-- C6: for every (time-adjusted) list of input examples, the batch produced by
the collate function satisfies: every entry of the valid-length vector is at
most the padded tensor's time dimension, and every padded-waveform value at a
time position at or beyond that example's valid length is exactly zero. -/
theorem C6_collate_padding (batch : List (List ℝ)) :
    (∀ L ∈ collateLengths batch, L ≤ collateMaxLen batch) ∧
      ∀ b t : ℕ, (collateLengths batch).getD b 0 ≤ t →
        ((collateY batch).getD b []).getD t 0 = 0 := by
  refine ⟨le_foldr_max _, fun b t ht => ?_⟩
  rcases Nat.lt_or_ge b batch.length with hb | hb
  · have hb' : b < (collateY batch).length := by simpa [collateY] using hb
    have hb'' : b < (collateLengths batch).length := by simpa [collateLengths] using hb
    rw [List.getD_eq_getElem _ _ hb']
    have hrow : (collateY batch)[b] = _pad batch[b] (collateMaxLen batch) := by
      simp [collateY]
    rw [hrow]
    have hlen : (collateLengths batch).getD b 0 = batch[b].length := by
      rw [List.getD_eq_getElem _ _ hb'']
      simp [collateLengths]
    exact pad_getD_zero _ _ _ (by rw [hlen] at ht; exact ht)
  · have hout : (collateY batch).getD b [] = [] :=
      List.getD_eq_default _ _ (by simpa [collateY] using hb)
    rw [hout]
    simp

/-- A value stored in the checkpoint dictionary saved by `torch.save`
(train_student.py lines 815-821): the model state-dict (parameter name to
value, values abstracted to `ℚ`), the optional optimizer state (abstracted),
or an integer counter. -/
inductive CkptVal where
  | params : List (String × ℚ) → CkptVal
  | optim : Option ℕ → CkptVal
  | counter : ℕ → CkptVal

/-- The checkpoint dictionary: string keys to values. -/
def Checkpoint : Type := List (String × CkptVal)

/-- `checkpoint[key]` / `checkpoint.get(key, ...)` lookup. -/
def lookupKey (ck : Checkpoint) (key : String) : Option CkptVal :=
  (List.find? (fun p => p.1 == key) ck).map Prod.snd

/-- `save_checkpoint` (train_student.py lines 810-821): the saved dictionary
holds the model state-dict, the (possibly `None`) optimizer state and the
three counters. -/
def save_checkpoint (stateDict : List (String × ℚ)) (optimizerState : Option ℕ)
    (step epoch testStep : ℕ) : Checkpoint :=
  [("state_dict", CkptVal.params stateDict),
   ("optimizer", CkptVal.optim optimizerState),
   ("global_step", CkptVal.counter step),
   ("global_epoch", CkptVal.counter epoch),
   ("global_test_step", CkptVal.counter testStep)]

/-- The state `load_checkpoint` establishes: the model parameters after
`model.load_state_dict(checkpoint["state_dict"])` (a strict full load copying
every parameter), the optimizer state loaded (if any), and the three global
counters. -/
structure LoadedState where
  modelParams : List (String × ℚ)
  optimizerState : Option ℕ
  globalStep : ℕ
  globalEpoch : ℕ
  globalTestStep : ℕ

/-- `load_checkpoint` (train_student.py lines 903-920): reads
`checkpoint["state_dict"]`, optionally `checkpoint["optimizer"]` (skipped when
`reset_optimizer` is set), the two required counters, and
`checkpoint.get("global_test_step", 0)` which defaults to zero when the key is
missing; `none` models an uncaught KeyError on a malformed checkpoint. -/
def load_checkpoint (ck : Checkpoint) (resetOptimizer : Bool) : Option LoadedState :=
  match lookupKey ck "state_dict" with
  | some (CkptVal.params sd) =>
    let opt : Option (Option ℕ) :=
      if resetOptimizer then some none
      else match lookupKey ck "optimizer" with
        | some (CkptVal.optim o) => some o
        | _ => none
    match opt, lookupKey ck "global_step", lookupKey ck "global_epoch" with
    | some o, some (CkptVal.counter s), some (CkptVal.counter e) =>
      let t := match lookupKey ck "global_test_step" with
        | some (CkptVal.counter t) => t
        | _ => 0
      some ⟨sd, o, s, e, t⟩
    | _, _, _ => none
  | _ => none

/-- C7: saving a checkpoint and loading it with the reset-optimizer flag off
restores every model parameter to its saved value and the three counters
(global step, global epoch, global test step) exactly; and loading a
checkpoint that lacks the optional `global_test_step` key defaults that
counter to zero. -/
theorem C7_checkpoint_roundtrip (sd : List (String × ℚ)) (opt : Option ℕ) (s e t : ℕ) :
    load_checkpoint (save_checkpoint sd opt s e t) false = some ⟨sd, opt, s, e, t⟩ ∧
      load_checkpoint [("state_dict", CkptVal.params sd), ("optimizer", CkptVal.optim opt),
          ("global_step", CkptVal.counter s), ("global_epoch", CkptVal.counter e)] false =
        some ⟨sd, opt, s, e, 0⟩ :=
  ⟨rfl, rfl⟩

/-- `ExponentialMovingAverage` (train_student.py lines 274-285): the decay and
the shadow map from registered parameter names to shadow values, as an
association list. -/
structure ExponentialMovingAverage where
  decay : ℝ
  shadow : List (String × ℝ)

/-- `self.shadow[name]` lookup: the binding of the (unique) dictionary key. -/
def lookupShadow : List (String × ℝ) → String → Option ℝ
  | [], _ => none
  | p :: sh, name => if p.1 = name then some p.2 else lookupShadow sh name

/-- `update` (train_student.py lines 282-285):
`assert name in self.shadow` (`none` models the assertion failure), then
`self.shadow[name] -= (1.0 - self.decay) * (self.shadow[name] - x)`. -/
def ExponentialMovingAverage.update (ema : ExponentialMovingAverage)
    (name : String) (x : ℝ) : Option ExponentialMovingAverage :=
  if (lookupShadow ema.shadow name).isSome then
    some ⟨ema.decay, ema.shadow.map fun p =>
      if p.1 = name then (p.1, p.2 - (1 - ema.decay) * (p.2 - x)) else p⟩
  else none

/-- `clone_as_averaged_model` (train_student.py lines 288-295): the averaged
model starts from the model's own parameters, and every parameter whose name
is in the shadow map is overwritten by the shadow value. -/
def clone_as_averaged_model (params : List (String × ℝ))
    (ema : ExponentialMovingAverage) : List (String × ℝ) :=
  params.map fun p =>
    match lookupShadow ema.shadow p.1 with
    | some s => (p.1, s)
    | none => p

theorem lookupShadow_map_update :
    ∀ (sh : List (String × ℝ)) (name : String) (d x s : ℝ),
      lookupShadow sh name = some s →
      lookupShadow (sh.map fun p =>
          if p.1 = name then (p.1, p.2 - (1 - d) * (p.2 - x)) else p) name =
        some (s - (1 - d) * (s - x))
  | [], _, _, _, _, h => by simp [lookupShadow] at h
  | p :: sh, name, d, x, s, h => by
    by_cases hp : p.1 = name
    · rw [lookupShadow, if_pos hp] at h
      have hval : p.2 = s := by simpa using h
      rw [List.map_cons, if_pos hp, lookupShadow, if_pos hp]
      rw [hval]
    · rw [lookupShadow, if_neg hp] at h
      rw [List.map_cons, if_neg hp, lookupShadow, if_neg hp]
      exact lookupShadow_map_update sh name d x s h

theorem lookupShadow_map_other :
    ∀ (sh : List (String × ℝ)) (name m : String) (d x : ℝ), m ≠ name →
      lookupShadow (sh.map fun p =>
          if p.1 = name then (p.1, p.2 - (1 - d) * (p.2 - x)) else p) m =
        lookupShadow sh m
  | [], _, _, _, _, _ => by simp [lookupShadow]
  | p :: sh, name, m, d, x, hm => by
    by_cases hp : p.1 = name
    · have hpm : ¬ p.1 = m := fun h => hm (h ▸ hp)
      rw [List.map_cons, if_pos hp, lookupShadow, if_neg hpm, lookupShadow, if_neg hpm]
      exact lookupShadow_map_other sh name m d x hm
    · by_cases hpm : p.1 = m
      · rw [List.map_cons, if_neg hp, lookupShadow, if_pos hpm, lookupShadow, if_pos hpm]
      · rw [List.map_cons, if_neg hp, lookupShadow, if_neg hpm, lookupShadow, if_neg hpm]
        exact lookupShadow_map_other sh name m d x hm

/-- C10: one EMA update on a registered name `name` replaces that name's
shadow value `s` with `decay*s + (1-decay)*x` and leaves every other shadow
entry unchanged; an update on a name that was never registered fails its
assertion; and building the averaged model overwrites exactly the parameters
whose names are in the shadow map with the shadow values, keeping the rest. -/
theorem C10_ema_update_and_clone (ema : ExponentialMovingAverage) (name : String)
    (x : ℝ) (params : List (String × ℝ)) :
    (∀ s, lookupShadow ema.shadow name = some s →
      ∃ ema', ema.update name x = some ema' ∧
        lookupShadow ema'.shadow name = some (ema.decay * s + (1 - ema.decay) * x) ∧
        ∀ m, m ≠ name → lookupShadow ema'.shadow m = lookupShadow ema.shadow m) ∧
    (lookupShadow ema.shadow name = none → ema.update name x = none) ∧
    ((clone_as_averaged_model params ema).length = params.length ∧
      ∀ i, i < params.length →
        (clone_as_averaged_model params ema).getD i ("", 0) =
          match lookupShadow ema.shadow ((params.getD i ("", 0)).1) with
          | some s => ((params.getD i ("", 0)).1, s)
          | none => params.getD i ("", 0)) := by
  refine ⟨fun s hs => ?_, fun hn => ?_, ?_, fun i hi => ?_⟩
  · have hsome : (lookupShadow ema.shadow name).isSome = true := by
      rw [hs]
      rfl
    refine ⟨_, by rw [ExponentialMovingAverage.update, if_pos hsome], ?_, ?_⟩
    · rw [lookupShadow_map_update ema.shadow name ema.decay x s hs]
      congr 1
      ring
    · exact fun m hm => lookupShadow_map_other ema.shadow name m ema.decay x hm
  · rw [ExponentialMovingAverage.update, if_neg (by rw [hn]; simp)]
  · simp [clone_as_averaged_model]
  · have hi' : i < (clone_as_averaged_model params ema).length := by
      simpa [clone_as_averaged_model] using hi
    rw [List.getD_eq_getElem _ _ hi', List.getD_eq_getElem _ _ hi]
    simp only [clone_as_averaged_model, List.getElem_map]

/-- A named tensor entry of a state dict: (parameter name, tensor shape,
tensor payload).  Shapes are abstracted to a single natural number (only
shape equality matters to `load_state_dict`) and payloads to an integer. -/
abbrev ParamSpec := String × ℕ × ℤ

/-- Dictionary lookup on a state dict. -/
def alookup : String → List ParamSpec → Option (ℕ × ℤ)
  | _, [] => none
  | name, p :: l => if p.1 = name then some p.2 else alookup name l

/-- `d[k] = v` on a Python dict as an association list: replace the binding of
an existing key, append a new binding otherwise. -/
def dictSet (d : List ParamSpec) (entry : ParamSpec) : List ParamSpec :=
  if (alookup entry.1 d).isSome then
    d.map fun p => if p.1 = entry.1 then entry else p
  else d ++ [entry]

/-- What `load_state_dict` does to one model parameter `p`: copy the
state-dict payload when the dict has `p`'s name with `p`'s shape, keep `p`
otherwise. -/
def loadEntry (sd : List ParamSpec) (p : ParamSpec) : ParamSpec :=
  match alookup p.1 sd with
  | some sv => if sv.1 = p.2.1 then (p.1, p.2.1, sv.2) else p
  | none => p

/-- Whether one model parameter contributes an error message to a strict
`load_state_dict` call: a shape mismatch, or its key missing from the dict. -/
def loadEntryErr (sd : List ParamSpec) (p : ParamSpec) : Bool :=
  match alookup p.1 sd with
  | some sv => decide (¬ sv.1 = p.2.1)
  | none => true

/-- `model.load_state_dict(sd)` (strict), per the torch semantics the script
relies on: every state-dict entry whose shape matches the model parameter's
shape is copied into the model, mismatched entries leave the parameter
untouched, and RuntimeError is raised at the end (the `Bool` component) when
any parameter mismatched or was missing. -/
def load_state_dict (modelP sd : List ParamSpec) : List ParamSpec × Bool :=
  (modelP.map (loadEntry sd), modelP.any (loadEntryErr sd))

/-- The per-parameter retry loop of `restore_parts` (train_student.py lines
950-957): for each valid checkpoint entry, write it into the dict
(`model_dict[k] = v`), call `model.load_state_dict(model_dict)`, and on
RuntimeError warn about `k` and continue.  State: (model parameters,
accumulated dict, warned names). -/
def restoreLoop : List ParamSpec → List ParamSpec → List ParamSpec → List String →
    List ParamSpec × List ParamSpec × List String
  | [], m, d, w => (m, d, w)
  | entry :: rest, m, d, w =>
    restoreLoop rest (load_state_dict m (dictSet d entry)).1 (dictSet d entry)
      (if (load_state_dict m (dictSet d entry)).2 then w ++ [entry.1] else w)

/-- `restore_parts` (train_student.py lines 938-957): keep the checkpoint
entries whose names exist in the model (`valid_state_dict`), update the
model's own state dict with them and try one strict load; if that raises
(some shape mismatched), re-fetch the state dict and retry entry by entry,
warning per failing load.  All RuntimeErrors are caught, so the function
always returns (final model parameters, warned names). -/
def restore_parts (ckSd modelP : List ParamSpec) : List ParamSpec × List String :=
  let valid := ckSd.filter fun e => (alookup e.1 modelP).isSome
  let merged := valid.foldl dictSet modelP
  let r1 := load_state_dict modelP merged
  if r1.2 then
    let res := restoreLoop valid r1.1 r1.1 []
    (res.1, res.2.2)
  else (r1.1, [])

/-- The end state the claim describes: each model parameter takes the
checkpoint payload exactly when its name exists there with a matching shape,
and keeps its initial value otherwise; checkpoint entries absent from the
model never appear. -/
def restoreTarget (ckSd modelP : List ParamSpec) : List ParamSpec :=
  modelP.map (loadEntry ckSd)

theorem loadEntry_some {sd : List ParamSpec} {p : ParamSpec} {sv : ℕ × ℤ}
    (h : alookup p.1 sd = some sv) :
    loadEntry sd p = if sv.1 = p.2.1 then (p.1, p.2.1, sv.2) else p := by
  unfold loadEntry
  rw [h]

theorem loadEntry_none {sd : List ParamSpec} {p : ParamSpec}
    (h : alookup p.1 sd = none) : loadEntry sd p = p := by
  unfold loadEntry
  rw [h]

theorem loadEntryErr_some {sd : List ParamSpec} {p : ParamSpec} {sv : ℕ × ℤ}
    (h : alookup p.1 sd = some sv) :
    loadEntryErr sd p = decide (¬ sv.1 = p.2.1) := by
  unfold loadEntryErr
  rw [h]

theorem loadEntry_fst (sd : List ParamSpec) (p : ParamSpec) :
    (loadEntry sd p).1 = p.1 := by
  cases h : alookup p.1 sd with
  | none => rw [loadEntry_none h]
  | some sv =>
    rw [loadEntry_some h]
    split <;> rfl

theorem loadEntry_shape (sd : List ParamSpec) (p : ParamSpec) :
    (loadEntry sd p).2.1 = p.2.1 := by
  cases h : alookup p.1 sd with
  | none => rw [loadEntry_none h]
  | some sv =>
    rw [loadEntry_some h]
    split <;> rfl

theorem alookup_map_set_same :
    ∀ (d : List ParamSpec) (e : ParamSpec), (alookup e.1 d).isSome = true →
      alookup e.1 (d.map fun p => if p.1 = e.1 then e else p) = some e.2
  | [], e, h => by simp [alookup] at h
  | p :: d, e, h => by
    by_cases hp : p.1 = e.1
    · rw [List.map_cons, if_pos hp, alookup, if_pos rfl]
    · rw [alookup, if_neg hp] at h
      rw [List.map_cons, if_neg hp, alookup, if_neg hp]
      exact alookup_map_set_same d e h

theorem alookup_map_set_other :
    ∀ (d : List ParamSpec) (e : ParamSpec) (n : String), ¬ n = e.1 →
      alookup n (d.map fun p => if p.1 = e.1 then e else p) = alookup n d
  | [], _, _, _ => by simp [alookup]
  | p :: d, e, n, hn => by
    by_cases hp : p.1 = e.1
    · have hpn : ¬ p.1 = n := fun h => hn (h ▸ hp)
      have hen : ¬ e.1 = n := fun h => hn h.symm
      rw [List.map_cons, if_pos hp, alookup, if_neg hen, alookup, if_neg hpn]
      exact alookup_map_set_other d e n hn
    · by_cases hpn : p.1 = n
      · rw [List.map_cons, if_neg hp, alookup, if_pos hpn, alookup, if_pos hpn]
      · rw [List.map_cons, if_neg hp, alookup, if_neg hpn, alookup, if_neg hpn]
        exact alookup_map_set_other d e n hn

theorem alookup_append_self :
    ∀ (d : List ParamSpec) (e : ParamSpec), alookup e.1 d = none →
      alookup e.1 (d ++ [e]) = some e.2
  | [], e, _ => by simp [alookup]
  | p :: d, e, h => by
    by_cases hp : p.1 = e.1
    · rw [alookup, if_pos hp] at h
      exact absurd h (by simp)
    · rw [alookup, if_neg hp] at h
      rw [List.cons_append, alookup, if_neg hp]
      exact alookup_append_self d e h

theorem alookup_append_other :
    ∀ (d : List ParamSpec) (e : ParamSpec) (n : String), ¬ n = e.1 →
      alookup n (d ++ [e]) = alookup n d
  | [], e, n, hn => by
    rw [List.nil_append, alookup, alookup, if_neg (fun h => hn h.symm)]
    rfl
  | p :: d, e, n, hn => by
    by_cases hpn : p.1 = n
    · rw [List.cons_append, alookup, if_pos hpn, alookup, if_pos hpn]
    · rw [List.cons_append, alookup, if_neg hpn, alookup, if_neg hpn]
      exact alookup_append_other d e n hn

theorem alookup_dictSet (d : List ParamSpec) (e : ParamSpec) (n : String) :
    alookup n (dictSet d e) = if n = e.1 then some e.2 else alookup n d := by
  rw [dictSet]
  by_cases hs : (alookup e.1 d).isSome = true
  · rw [if_pos hs]
    by_cases hn : n = e.1
    · rw [if_pos hn, hn, alookup_map_set_same d e hs]
    · rw [if_neg hn, alookup_map_set_other d e n hn]
  · rw [if_neg hs]
    have hnone : alookup e.1 d = none := by
      cases h : alookup e.1 d with
      | none => rfl
      | some sv => rw [h] at hs; simp at hs
    by_cases hn : n = e.1
    · rw [if_pos hn, hn, alookup_append_self d e hnone]
    · rw [if_neg hn, alookup_append_other d e n hn]

theorem alookup_not_mem :
    ∀ (l : List ParamSpec) (n : String), n ∉ l.map Prod.fst → alookup n l = none
  | [], _, _ => rfl
  | p :: l, n, h => by
    have hpn : ¬ p.1 = n := by
      intro hc
      exact h (by rw [List.map_cons, hc]; exact List.mem_cons_self n _)
    rw [alookup, if_neg hpn]
    exact alookup_not_mem l n (fun hc => h (List.mem_cons_of_mem _ hc))

theorem alookup_mem_nodup :
    ∀ (l : List ParamSpec), (l.map Prod.fst).Nodup → ∀ p ∈ l, alookup p.1 l = some p.2
  | [], _, p, hp => by simp at hp
  | q :: l, hnd, p, hp => by
    rw [List.map_cons, List.nodup_cons] at hnd
    rcases List.mem_cons.mp hp with h | h
    · subst h
      rw [alookup, if_pos rfl]
    · have hqp : ¬ q.1 = p.1 := by
        intro hc
        exact hnd.1 (hc ▸ List.mem_map_of_mem Prod.fst h)
      rw [alookup, if_neg hqp]
      exact alookup_mem_nodup l hnd.2 p h

theorem mem_of_alookup_some :
    ∀ (l : List ParamSpec) (n : String) (sv : ℕ × ℤ),
      alookup n l = some sv → (n, sv) ∈ l
  | [], _, _, h => by simp [alookup] at h
  | p :: l, n, sv, h => by
    by_cases hp : p.1 = n
    · rw [alookup, if_pos hp] at h
      have : p = (n, sv) := by
        rcases p with ⟨pn, ps⟩
        simp only at hp
        simp only [Option.some_inj] at h
        rw [hp, h]
      rw [← this]
      exact List.mem_cons_self p l
    · rw [alookup, if_neg hp] at h
      exact List.mem_cons_of_mem _ (mem_of_alookup_some l n sv h)

theorem alookup_foldl_dictSet :
    ∀ (valid : List ParamSpec) (d : List ParamSpec) (n : String),
      ((valid.map Prod.fst).Nodup) →
      alookup n (valid.foldl dictSet d) =
        match alookup n valid with
        | some sv => some sv
        | none => alookup n d
  | [], d, n, _ => by simp [alookup]
  | e :: rest, d, n, hnd => by
    rw [List.map_cons, List.nodup_cons] at hnd
    rw [List.foldl_cons, alookup_foldl_dictSet rest (dictSet d e) n hnd.2,
      alookup_dictSet]
    by_cases hn : n = e.1
    · have hrest : alookup n rest = none := by
        rw [hn]
        exact alookup_not_mem rest e.1 hnd.1
      have hcons : alookup n (e :: rest) = some e.2 := by
        rw [alookup, if_pos hn.symm]
      rw [hrest, hcons, if_pos hn]
    · have hcons : alookup n (e :: rest) = alookup n rest := by
        rw [alookup, if_neg (fun h => hn h.symm)]
      rw [hcons]
      cases hrest : alookup n rest with
      | none => rw [if_neg hn]
      | some sv => rfl

theorem alookup_filter_model (ckSd modelP : List ParamSpec) (n : String)
    (hn : (alookup n modelP).isSome = true) :
    alookup n (ckSd.filter fun e => (alookup e.1 modelP).isSome) = alookup n ckSd := by
  induction ckSd with
  | nil => rfl
  | cons c ck ih =>
    by_cases hc : ((alookup c.1 modelP).isSome : Bool) = true
    · rw [List.filter_cons, if_pos hc]
      by_cases hcn : c.1 = n
      · rw [alookup, if_pos hcn, alookup, if_pos hcn]
      · rw [alookup, if_neg hcn, alookup, if_neg hcn]
        exact ih
    · have hcn : ¬ c.1 = n := by
        intro hcc
        rw [hcc] at hc
        exact hc hn
      rw [List.filter_cons, if_neg hc, alookup, if_neg hcn]
      exact ih

/-- Invariant of the retry loop's accumulated dict: every model parameter's
name is bound, and whenever the bound shape matches the model's, the bound
payload is the target payload (so re-loading the dict cannot move the model
away from the target state). -/
def GoodDict (ckSd modelP d : List ParamSpec) : Prop :=
  ∀ p ∈ modelP, ∃ sv : ℕ × ℤ, alookup p.1 d = some sv ∧
    (sv.1 = p.2.1 → (p.1, p.2.1, sv.2) = loadEntry ckSd p)

theorem load_of_goodDict (ckSd modelP d : List ParamSpec)
    (hgood : GoodDict ckSd modelP d) :
    (load_state_dict (restoreTarget ckSd modelP) d).1 = restoreTarget ckSd modelP := by
  show (restoreTarget ckSd modelP).map (loadEntry d) = restoreTarget ckSd modelP
  rw [restoreTarget, List.map_map]
  refine List.map_congr_left fun p hp => ?_
  obtain ⟨sv, hsv, himp⟩ := hgood p hp
  have h1 : alookup (loadEntry ckSd p).1 d = some sv := by
    rw [loadEntry_fst]
    exact hsv
  rw [Function.comp_apply, loadEntry_some h1, loadEntry_shape]
  split
  · rename_i hsh
    rw [loadEntry_fst]
    exact himp hsh
  · rfl

theorem goodDict_dictSet (ckSd modelP d : List ParamSpec)
    (hck : (ckSd.map Prod.fst).Nodup)
    (entry : ParamSpec) (hmem : entry ∈ ckSd)
    (hgood : GoodDict ckSd modelP d) :
    GoodDict ckSd modelP (dictSet d entry) := by
  intro p hp
  by_cases hn : p.1 = entry.1
  · refine ⟨entry.2, by rw [alookup_dictSet, if_pos hn], fun hsh => ?_⟩
    have hcklook : alookup p.1 ckSd = some entry.2 := by
      rw [hn]
      exact alookup_mem_nodup ckSd hck entry hmem
    rw [loadEntry_some hcklook, if_pos hsh]
  · obtain ⟨sv, hsv, himp⟩ := hgood p hp
    exact ⟨sv, by rw [alookup_dictSet, if_neg hn]; exact hsv, himp⟩

theorem restoreTarget_names (ckSd modelP : List ParamSpec) :
    (restoreTarget ckSd modelP).map Prod.fst = modelP.map Prod.fst := by
  rw [restoreTarget, List.map_map]
  exact List.map_congr_left fun q _ => loadEntry_fst ckSd q

theorem goodDict_target (ckSd modelP : List ParamSpec)
    (hmodel : (modelP.map Prod.fst).Nodup) :
    GoodDict ckSd modelP (restoreTarget ckSd modelP) := by
  intro p hp
  have htn : ((restoreTarget ckSd modelP).map Prod.fst).Nodup := by
    rw [restoreTarget_names]
    exact hmodel
  have hmem : loadEntry ckSd p ∈ restoreTarget ckSd modelP :=
    List.mem_map_of_mem _ hp
  have hlook := alookup_mem_nodup _ htn _ hmem
  refine ⟨(loadEntry ckSd p).2, ?_, fun hsh => ?_⟩
  · rw [← loadEntry_fst ckSd p]
    exact hlook
  · calc (p.1, p.2.1, (loadEntry ckSd p).2.2)
        = ((loadEntry ckSd p).1, (loadEntry ckSd p).2.1, (loadEntry ckSd p).2.2) := by
          rw [loadEntry_fst, loadEntry_shape]
      _ = loadEntry ckSd p := by simp

theorem restoreLoop_master (ckSd modelP : List ParamSpec)
    (hck : (ckSd.map Prod.fst).Nodup) :
    ∀ (valid : List ParamSpec) (d : List ParamSpec) (w : List String),
      (∀ entry ∈ valid, entry ∈ ckSd) →
      GoodDict ckSd modelP d →
      (restoreLoop valid (restoreTarget ckSd modelP) d w).1 = restoreTarget ckSd modelP ∧
        (∀ name ∈ w, name ∈ (restoreLoop valid (restoreTarget ckSd modelP) d w).2.2) ∧
        (∀ entry ∈ valid,
          (∃ q ∈ modelP, q.1 = entry.1 ∧ ¬ entry.2.1 = q.2.1) →
          entry.1 ∈ (restoreLoop valid (restoreTarget ckSd modelP) d w).2.2)
  | [], d, w, _, _ => ⟨rfl, fun _ h => h, fun _ h => by simp at h⟩
  | entry :: rest, d, w, hval, hgood => by
    have hgood' : GoodDict ckSd modelP (dictSet d entry) :=
      goodDict_dictSet ckSd modelP d hck entry (hval entry (List.mem_cons_self _ _)) hgood
    have hm' : (load_state_dict (restoreTarget ckSd modelP) (dictSet d entry)).1 =
        restoreTarget ckSd modelP := load_of_goodDict ckSd modelP _ hgood'
    have hstep : restoreLoop (entry :: rest) (restoreTarget ckSd modelP) d w =
        restoreLoop rest (restoreTarget ckSd modelP) (dictSet d entry)
          (if (load_state_dict (restoreTarget ckSd modelP) (dictSet d entry)).2 then
            w ++ [entry.1] else w) := by
      rw [restoreLoop, hm']
    have ih := restoreLoop_master ckSd modelP hck rest (dictSet d entry)
      (if (load_state_dict (restoreTarget ckSd modelP) (dictSet d entry)).2 then
        w ++ [entry.1] else w)
      (fun e he => hval e (List.mem_cons_of_mem _ he)) hgood'
    refine ⟨by rw [hstep]; exact ih.1, fun name hname => ?_, fun e he hq => ?_⟩
    · rw [hstep]
      refine ih.2.1 name ?_
      split
      · exact List.mem_append_left _ hname
      · exact hname
    · rcases List.mem_cons.mp he with he0 | he1
      · subst he0
        obtain ⟨q, hqmem, hqname, hqsh⟩ := hq
        have herr : (load_state_dict (restoreTarget ckSd modelP) (dictSet d e)).2 = true := by
          show ((restoreTarget ckSd modelP).any (loadEntryErr (dictSet d e))) = true
          refine List.any_eq_true.mpr ⟨loadEntry ckSd q, List.mem_map_of_mem _ hqmem, ?_⟩
          have hlk : alookup (loadEntry ckSd q).1 (dictSet d e) = some e.2 := by
            rw [loadEntry_fst, alookup_dictSet, if_pos hqname]
          rw [loadEntryErr_some hlk, loadEntry_shape]
          simpa using hqsh
        rw [hstep]
        refine ih.2.1 e.1 ?_
        rw [if_pos herr]
        exact List.mem_append_right _ (List.mem_singleton.mpr rfl)
      · rw [hstep]
        exact ih.2.2 e he1 hq

theorem alookup_merged (ckSd modelP : List ParamSpec)
    (hmodel : (modelP.map Prod.fst).Nodup) (hck : (ckSd.map Prod.fst).Nodup)
    (p : ParamSpec) (hp : p ∈ modelP) :
    alookup p.1 ((ckSd.filter fun e => (alookup e.1 modelP).isSome).foldl dictSet modelP) =
      match alookup p.1 ckSd with
      | some sv => some sv
      | none => some p.2 := by
  have hvalidnd : (((ckSd.filter fun e => (alookup e.1 modelP).isSome).map Prod.fst)).Nodup :=
    ((List.filter_sublist ckSd).map Prod.fst).nodup hck
  have hself : alookup p.1 modelP = some p.2 := alookup_mem_nodup modelP hmodel p hp
  rw [alookup_foldl_dictSet _ modelP p.1 hvalidnd,
    alookup_filter_model ckSd modelP p.1 (by rw [hself]; rfl), hself]

theorem loadEntry_merged (ckSd modelP : List ParamSpec)
    (hmodel : (modelP.map Prod.fst).Nodup) (hck : (ckSd.map Prod.fst).Nodup)
    (p : ParamSpec) (hp : p ∈ modelP) :
    loadEntry ((ckSd.filter fun e => (alookup e.1 modelP).isSome).foldl dictSet modelP) p =
      loadEntry ckSd p := by
  have hmg := alookup_merged ckSd modelP hmodel hck p hp
  cases hcase : alookup p.1 ckSd with
  | some sv =>
    rw [hcase] at hmg
    rw [loadEntry_some hmg, loadEntry_some hcase]
  | none =>
    rw [hcase] at hmg
    rw [loadEntry_some hmg, loadEntry_none hcase, if_pos rfl]

/-- C8: partial restore copies into the model exactly those checkpoint
parameters whose names exist in the model and whose shapes match
(`restoreTarget`: name-matching shape-compatible entries take the checkpoint
payload, every other model parameter keeps its initial value, checkpoint
entries absent from the model are ignored), each name-matching but
shape-incompatible parameter is reported in the warned-names list, and the
function is total (every RuntimeError is caught), so it never raises to the
caller. -/
theorem C8_restore_parts (ckSd modelP : List ParamSpec)
    (hmodel : (modelP.map Prod.fst).Nodup) (hck : (ckSd.map Prod.fst).Nodup) :
    (restore_parts ckSd modelP).1 = restoreTarget ckSd modelP ∧
      ∀ p ∈ modelP, ∀ sv : ℕ × ℤ, alookup p.1 ckSd = some sv → ¬ sv.1 = p.2.1 →
        p.1 ∈ (restore_parts ckSd modelP).2 := by
  have hm1 : (load_state_dict modelP
      ((ckSd.filter fun e => (alookup e.1 modelP).isSome).foldl dictSet modelP)).1 =
      restoreTarget ckSd modelP := by
    show modelP.map (loadEntry _) = modelP.map (loadEntry ckSd)
    exact List.map_congr_left fun p hp => loadEntry_merged ckSd modelP hmodel hck p hp
  cases herr : (load_state_dict modelP
      ((ckSd.filter fun e => (alookup e.1 modelP).isSome).foldl dictSet modelP)).2 with
  | false =>
    have hout : restore_parts ckSd modelP =
        ((load_state_dict modelP
          ((ckSd.filter fun e => (alookup e.1 modelP).isSome).foldl dictSet modelP)).1, []) := by
      rw [restore_parts]
      simp only [herr]
      rfl
    refine ⟨by rw [hout]; exact hm1, fun p hp sv hsv hsh => ?_⟩
    exfalso
    have hany : (load_state_dict modelP
        ((ckSd.filter fun e => (alookup e.1 modelP).isSome).foldl dictSet modelP)).2 = true := by
      show (modelP.any (loadEntryErr _)) = true
      refine List.any_eq_true.mpr ⟨p, hp, ?_⟩
      have hmg := alookup_merged ckSd modelP hmodel hck p hp
      rw [hsv] at hmg
      rw [loadEntryErr_some hmg]
      simpa using hsh
    rw [herr] at hany
    exact Bool.false_ne_true hany
  | true =>
    have hout : restore_parts ckSd modelP =
        ((restoreLoop (ckSd.filter fun e => (alookup e.1 modelP).isSome)
            (restoreTarget ckSd modelP) (restoreTarget ckSd modelP) []).1,
          (restoreLoop (ckSd.filter fun e => (alookup e.1 modelP).isSome)
            (restoreTarget ckSd modelP) (restoreTarget ckSd modelP) []).2.2) := by
      rw [restore_parts]
      simp only [herr, hm1]
      rfl
    have hmaster := restoreLoop_master ckSd modelP hck
      (ckSd.filter fun e => (alookup e.1 modelP).isSome)
      (restoreTarget ckSd modelP) []
      (fun e he => List.mem_of_mem_filter he)
      (goodDict_target ckSd modelP hmodel)
    refine ⟨by rw [hout]; exact hmaster.1, fun p hp sv hsv hsh => ?_⟩
    rw [hout]
    have hef : ((p.1, sv) : ParamSpec) ∈ ckSd.filter fun e => (alookup e.1 modelP).isSome := by
      refine List.mem_filter.mpr ⟨mem_of_alookup_some ckSd p.1 sv hsv, ?_⟩
      rw [alookup_mem_nodup modelP hmodel p hp]
      rfl
    exact hmaster.2.2 (p.1, sv) hef ⟨p, hp, rfl, hsh⟩

/-- Witness for C8 at a concrete input: the model has parameters `a`, `b`,
`c`; the checkpoint has `a` (matching shape), `b` (mismatched shape) and `z`
(absent from the model). -/
theorem C8_restore_parts_witness :
    ((([("a", 1, 0), ("b", 2, 0), ("c", 3, 5)] : List ParamSpec).map Prod.fst).Nodup ∧
      (([("a", 1, 9), ("b", 5, 7), ("z", 1, 1)] : List ParamSpec).map Prod.fst).Nodup) ∧
      ((restore_parts [("a", 1, 9), ("b", 5, 7), ("z", 1, 1)]
          [("a", 1, 0), ("b", 2, 0), ("c", 3, 5)]).1 =
        restoreTarget [("a", 1, 9), ("b", 5, 7), ("z", 1, 1)]
          [("a", 1, 0), ("b", 2, 0), ("c", 3, 5)] ∧
        ∀ p ∈ ([("a", 1, 0), ("b", 2, 0), ("c", 3, 5)] : List ParamSpec),
          ∀ sv : ℕ × ℤ, alookup p.1 [("a", 1, 9), ("b", 5, 7), ("z", 1, 1)] = some sv →
            ¬ sv.1 = p.2.1 →
            p.1 ∈ (restore_parts [("a", 1, 9), ("b", 5, 7), ("z", 1, 1)]
              [("a", 1, 0), ("b", 2, 0), ("c", 3, 5)]).2) :=
  ⟨⟨by decide, by decide⟩,
    C8_restore_parts [("a", 1, 9), ("b", 5, 7), ("z", 1, 1)]
      [("a", 1, 0), ("b", 2, 0), ("c", 3, 5)] (by decide) (by decide)⟩
